import Mathlib

/-!
FileSort: an external-memory line sorter.

A shallow embedding of `src/fsort.hpp` and `src/mmap.cpp`.

* Files and mappings are lists of bytes; a pointer into a mapping is an index into its bytes.
* A `std::string_view` is represented by the bytes it denotes.
* `size_t` values are naturals; file sizes are far below `2^64`, the one subtraction that can
  wrap (`size - output_file_offset`) is modelled with its wrap-around.
* Exceptions and faults are recorded in a `Status`; a call whose status is not `ok` has stopped
  at that point.
* Loops run on an iteration budget computed from their arguments. The loops of `nextLine` and of
  the scan in `sortRegion` advance by at least one byte in every pass and get the number of bytes
  before them as budget; a loop of `mergeRegions` that would need more passes than its budget
  ends with status `diverged`.
-/

namespace FileSort

/-- One `char` of a file, as the `unsigned char` that `std::char_traits<char>` compares. -/
abbrev Byte := Fin 256

/-- The newline byte `'\n'`. -/
def NL : Byte := 10

/-- How a call ended. -/
inductive Status where
  /-- normal return -/
  | ok
  /-- a `std::system_error` thrown by `throwSystemError` (here: `mmap` returned `MAP_FAILED`) -/
  | systemError
  /-- a write through a pointer outside the mapped window -/
  | outOfBounds
  /-- a write to a mapped page that lies wholly behind the end of the file (`SIGBUS`) -/
  | busError
  /-- integer division by zero -/
  | divisionByZero
  /-- the loop did not end within the iteration budget of the model -/
  | diverged
deriving DecidableEq

/-- Comparison `a <= b` of two `std::string_view`s: lexicographic on unsigned bytes, a proper
prefix first (`operator<=>` of `RegionLine` and the `operator<` used by `std::sort`). -/
def lineLe : List Byte → List Byte → Bool
  | [], _ => true
  | _ :: _, [] => false
  | a :: as, b :: bs => if a < b then true else if b < a then false else lineLe as bs

/-- The order `lineLe` as a relation. -/
abbrev LineLe (a b : List Byte) : Prop := lineLe a b = true

/-- Result of `std::sort(lines.begin(), lines.end())`: the ascending arrangement of the views.
Views that compare equal denote the same bytes, so the arrangement is unique as a list of byte
strings. -/
def stdSort (lines : List (List Byte)) : List (List Byte) :=
  List.insertionSort LineLe lines

/-- The call `fs::resize_file`: truncate, or extend with zero bytes. -/
def resizeFile (file : List Byte) (new_size : Nat) : List Byte :=
  file.take new_size ++ List.replicate (new_size - file.length) 0

/-- The `size_t` subtraction `a - b` for `a, b < 2^64`. -/
def subSizeT (a b : Nat) : Nat :=
  if b ≤ a then a - b else 2 ^ 64 - (b - a)

/-! mmap.cpp -/

/-- The function `floorToDivisible` of mmap.cpp. -/
def floorToDivisible (value divisor : Nat) : Nat :=
  (value / divisor) * divisor

/-- The function `ceilToDivisible` of mmap.cpp. -/
def ceilToDivisible (value divisor : Nat) : Nat :=
  ((value + divisor - 1) / divisor) * divisor

/-- The length `legal_size` that `MemoryMappedFileBase::MemoryMappedFileBase` passes to `mmap`. -/
def legalSize (page_size offset size : Nat) : Nat :=
  ceilToDivisible (size + (offset - floorToDivisible offset page_size)) page_size

/-- The system call `mmap` returns `MAP_FAILED` (`EINVAL`) when the length is 0; no other failure
of the operating system is modelled. -/
def mmapFailed (length : Nat) : Bool :=
  length == 0

/-- The constructor `MemoryMappedFileBase::MemoryMappedFileBase(path, offset, size, readonly)`:
`true` when the mapping is established, `false` when the constructor throws. -/
def mapped (page_size offset size : Nat) : Bool :=
  !mmapFailed (legalSize page_size offset size)

/-! fsort.hpp: nextLine -/

/-- The `for (; pos < end; ++pos)` loop of `nextLine`: the position it stops at. -/
def nextLinePos (mem : List Byte) (end_ : Nat) : Nat → Nat → Nat
  | 0, pos => pos
  | fuel + 1, pos =>
    if pos < end_ then
      if mem.getD pos 0 = NL then pos else nextLinePos mem end_ fuel (pos + 1)
    else pos

/-- The bytes of the view `{begin, pos}` of a mapping. -/
def view (mem : List Byte) (begin_ pos : Nat) : List Byte :=
  (mem.drop begin_).take (pos - begin_)

/-- The function `FileSorter::nextLine(pos, end)`: the returned view and the new value of `pos`. -/
def nextLine (mem : List Byte) (pos end_ : Nat) : List Byte × Nat :=
  (view mem pos (nextLinePos mem end_ (end_ - pos) pos), nextLinePos mem end_ (end_ - pos) pos)

/-! fsort.hpp: sortRegion -/

/-- Variables of the scanning loop of `sortRegion`. -/
structure ScanState where
  /-- the offset `it - input.begin()` -/
  it : Nat
  partial_line_processed : Bool
  partial_line : Option (List Byte)
  lines : List (List Byte)
deriving DecidableEq

/-- One pass through the body of `for (it = input.begin(); it < input.end(); ++it)`, with the
increment `++it` at its end. -/
def scanBody (mem : List Byte) (end_ : Nat) (s : ScanState) : ScanState :=
  let r := nextLine mem s.it end_
  let first := !s.partial_line_processed && s.partial_line.isSome
  let line := if first then s.partial_line.getD [] ++ r.1 else r.1
  let partial_line := if first then none else s.partial_line
  let processed := if first then true else s.partial_line_processed
  if r.2 = end_ then
    { it := r.2 + 1, partial_line_processed := processed, partial_line := some line,
      lines := s.lines }
  else
    { it := r.2 + 1, partial_line_processed := processed, partial_line := partial_line,
      lines := s.lines ++ [line] }

/-- The scanning loop of `sortRegion`. -/
def scanLoop (mem : List Byte) (end_ : Nat) : Nat → ScanState → ScanState
  | 0, s => s
  | fuel + 1, s => if s.it < end_ then scanLoop mem end_ fuel (scanBody mem end_ s) else s

/-- The writing loop of `sortRegion` over the output mapping `out`, from write position `pos`:
the mapping and the position afterwards, `none` when `std::copy_n` would write behind
`output.end()`. -/
def writeLines : List (List Byte) → List Byte → Nat → Option (List Byte × Nat)
  | [], out, pos => some (out, pos)
  | line :: rest, out, pos =>
    if pos + line.length ≤ out.length then
      let out1 := out.take pos ++ line ++ out.drop (pos + line.length)
      if pos + line.length < out.length then
        writeLines rest (out1.set (pos + line.length) NL) (pos + line.length + 1)
      else
        writeLines rest out1 (pos + line.length)
    else none

/-- What a call of `sortRegion` leaves behind. -/
structure RegionOutcome where
  status : Status
  /-- the return value -/
  written : Bool
  /-- contents of `output_file` -/
  output_file : List Byte
  /-- the in-out argument `partial_line` -/
  partial_line : Option (List Byte)
  /-- the vector `lines` after `std::sort` -/
  lines : List (List Byte)
deriving DecidableEq

/-- The function `FileSorter::sortRegion(input_file, offset, in_size, output_file, partial_line)`.
`input_file` is the contents of the input, `output_file` the contents of the file at the output
path (`none` if there is none). -/
def sortRegion (page_size : Nat) (input_file : List Byte) (offset in_size : Nat)
    (output_file : Option (List Byte)) (partial_line : Option (List Byte)) : RegionOutcome :=
  let out_size := in_size + (partial_line.getD []).length
  let file := resizeFile (output_file.getD []) out_size
  if !mapped page_size offset in_size then
    { status := .systemError, written := false, output_file := file,
      partial_line := partial_line, lines := [] }
  else if !mapped page_size 0 out_size then
    { status := .systemError, written := false, output_file := file,
      partial_line := partial_line, lines := [] }
  else
    let s := scanLoop (input_file.drop offset) in_size in_size
      { it := 0, partial_line_processed := false, partial_line := partial_line, lines := [] }
    let lines := stdSort s.lines
    match writeLines lines file 0 with
    | none =>
      { status := .outOfBounds, written := false, output_file := file,
        partial_line := s.partial_line, lines := lines }
    | some (out, pos) =>
      if lines.isEmpty then
        { status := .ok, written := false, output_file := out,
          partial_line := s.partial_line, lines := lines }
      else
        { status := .ok, written := true,
          output_file := resizeFile out (out_size - (out_size - pos)),
          partial_line := s.partial_line, lines := lines }

/-! fsort.hpp: mergeRegions -/

/-- The type `struct RegionLine`; `mem` is the mapping of the run file that `region_pos` and
`region_end` point into (`region_pos`, `region_end` are offsets from its `begin()`). -/
structure RegionLine where
  mem : List Byte
  region_pos : Nat
  region_end : Nat
  line : List Byte
deriving DecidableEq

/-- The `operator<=>` of `RegionLine` as the relation `a <= b`: the lines alone are compared. -/
abbrev EntryLe (a b : RegionLine) : Prop := LineLe a.line b.line

/-- The call `heap.push` of the `std::priority_queue<RegionLine, ..., std::greater<RegionLine>>`.
The queue is modelled by its contract, a container whose `top()` is an entry with a least `line`:
a list kept in ascending order of `line` (`top()` is its head, `pop()` removes the head). Which of
several entries with equal lines is on top is not specified by the library. -/
def heapPush (x : RegionLine) (heap : List RegionLine) : List RegionLine :=
  List.orderedInsert EntryLe x heap

/-- The loop over `regions` that seeds the heap with the first line of every run. -/
def seedHeap : List (List Byte) → List RegionLine → List RegionLine
  | [], heap => heap
  | run :: rest, heap =>
    if 0 ≠ run.length then
      seedHeap rest (heapPush
        { mem := run, region_pos := (nextLine run 0 run.length).2, region_end := run.length,
          line := (nextLine run 0 run.length).1 } heap)
    else seedHeap rest heap

/-- The output side of `mergeRegions`: the output file and the window mapped from it. -/
structure Output where
  status : Status
  /-- contents of `output_file` -/
  file : List Byte
  output_file_offset : Nat
  /-- the length `output->end() - output->begin()` -/
  window : Nat
  /-- the offset `output_pos - output->begin()` -/
  output_pos : Nat
deriving DecidableEq

/-- The statements `output = std::make_unique<MemoryMappedFile<false>>(output_file,
output_file_offset, std::min(size - output_file_offset, region_size_));` and
`output_pos = output->begin();`. -/
def mapOutput (page_size region_size_ size : Nat) (file : List Byte) (output_file_offset : Nat) :
    Output :=
  { status :=
      if mapped page_size output_file_offset (min (subSizeT size output_file_offset) region_size_)
      then .ok else .systemError,
    file := file,
    output_file_offset := output_file_offset,
    window := min (subSizeT size output_file_offset) region_size_,
    output_pos := 0 }

/-- Store of the bytes `data` through `output_pos` (which is not moved): `std::copy_n` into the
window, or `*output_pos = c`. The window is a shared mapping of the file from
`output_file_offset` on. Nothing is accessed when `data` is empty. -/
def Output.store (o : Output) (data : List Byte) : Output :=
  if data.length = 0 then o
  else if o.window < o.output_pos + data.length then { o with status := .outOfBounds }
  else if o.file.length < o.output_file_offset + o.output_pos + data.length then
    { o with status := .busError }
  else
    { o with file := o.file.take (o.output_file_offset + o.output_pos) ++ data ++
        o.file.drop (o.output_file_offset + o.output_pos + data.length) }

/-- The statement `output_pos += n`. -/
def Output.advance (o : Output) (n : Nat) : Output :=
  { o with output_pos := o.output_pos + n }

/-- One pass through the body of `while (bytes_to_copy > 0 || output_pos == output->end())`,
up to and including the window rollover. -/
def copyBody (page_size region_size_ size : Nat) (line : List Byte) (o : Output)
    (line_pos bytes_to_copy : Nat) : Output :=
  let o1 := o.store ((line.drop line_pos).take bytes_to_copy)
  if o1.status ≠ .ok then o1
  else if o1.output_pos + bytes_to_copy = o1.window then
    mapOutput page_size region_size_ size o1.file (o1.output_file_offset + region_size_)
  else o1.advance bytes_to_copy

/-- The loop `while (bytes_to_copy > 0 || output_pos == output->end())` that copies one line. -/
def copyLoop (page_size region_size_ size : Nat) (line : List Byte) :
    Nat → Output → Nat → Nat → Output
  | 0, o, _, bytes_to_copy =>
    if 0 < bytes_to_copy ∨ o.output_pos = o.window then { o with status := .diverged } else o
  | fuel + 1, o, line_pos, bytes_to_copy =>
    if 0 < bytes_to_copy ∨ o.output_pos = o.window then
      let o1 := copyBody page_size region_size_ size line o line_pos bytes_to_copy
      if o1.status ≠ .ok then o1
      else copyLoop page_size region_size_ size line fuel o1 (line_pos + bytes_to_copy)
        (min (line.length - (line_pos + bytes_to_copy)) (o1.window - o1.output_pos))
    else o

/-- The statements of the merge loop that write one line and its newline: the copy loop and
`*(output_pos++) = '\n'`. -/
def emitLine (page_size region_size_ size : Nat) (line : List Byte) (o : Output) : Output :=
  let o1 := copyLoop page_size region_size_ size line (2 * line.length + 3) o 0
    (min (o.window - o.output_pos) line.length)
  if o1.status ≠ .ok then o1
  else
    let o2 := o1.store [NL]
    if o2.status ≠ .ok then o2 else o2.advance 1

/-- The statements of the merge loop that advance the run of the popped entry: the heap after
`heap.pop()` and the conditional `heap.push`. -/
def advanceRun (top : RegionLine) (heap : List RegionLine) : List RegionLine :=
  if top.region_pos + 1 < top.region_end then
    heapPush
      { top with
        region_pos := (nextLine top.mem (top.region_pos + 1) top.region_end).2,
        line := (nextLine top.mem (top.region_pos + 1) top.region_end).1 } heap
  else heap

/-- The loop `while (!heap.empty())` of `mergeRegions`. -/
def mergeLoop (page_size region_size_ size : Nat) : Nat → List RegionLine → Output → Output
  | _, [], o => o
  | 0, _ :: _, o => { o with status := .diverged }
  | fuel + 1, top :: heap, o =>
    let o1 := emitLine page_size region_size_ size top.line o
    if o1.status ≠ .ok then o1
    else mergeLoop page_size region_size_ size fuel (advanceRun top heap) o1

/-- The `class FileSorter`: the page size of the system and the two data members the code reads. -/
structure FileSorter where
  /-- the value of `getPageSize()` -/
  page_size : Nat
  num_pages_hint_ : Nat
  region_size_ : Nat
deriving DecidableEq

/-- What a call of `mergeRegions` or `sortFile` leaves behind. -/
structure FileOutcome where
  status : Status
  /-- contents of the file at the output path, `none` if there is no such file -/
  output_file : Option (List Byte)
deriving DecidableEq

/-- The function `FileSorter::mergeRegions(region_files, output_file)`; `region_files` are the
contents of the run files, `output_file` the contents of the file at the output path before the
call. -/
def mergeRegions (sorter : FileSorter) (region_files : List (List Byte))
    (output_file : Option (List Byte)) : FileOutcome :=
  let size := (region_files.map List.length).sum
  let file := resizeFile (output_file.getD []) size
  if region_files.any (fun run => !mapped sorter.page_size 0 run.length) then
    { status := .systemError, output_file := some file }
  else
    let heap := seedHeap region_files []
    let o := mapOutput sorter.page_size sorter.region_size_ size file 0
    if o.status ≠ .ok then { status := o.status, output_file := some o.file }
    else
      let o1 := mergeLoop sorter.page_size sorter.region_size_ size size heap o
      if o1.status ≠ .ok then { status := o1.status, output_file := some o1.file }
      else
        { status := .ok,
          output_file := some (resizeFile o1.file (subSizeT size (o1.window - o1.output_pos))) }

/-! fsort.hpp: sortFile -/

/-- A path in the temp directory: the `n`-th name that `nextTempFile` hands out. `nextTempFile`
draws random names until one does not exist, so every call yields a name not in use. -/
abbrev Path := Nat

/-- The files of the temp directory. -/
abbrev TempDir := Path → Option (List Byte)

/-- Variables of `sortFile` during the region pass, with the temp directory. -/
structure DriverState where
  status : Status
  temp_dir : TempDir
  /-- number of names handed out by `nextTempFile` -/
  names_used : Nat
  region_files : List Path
  last_partial_line : Option (List Byte)
  /-- the variable `region_file`; `none` is the empty path -/
  region_file : Option Path

/-- One pass through the body of `for (size_t i = 0; i < num_regions; ++i)`. -/
def regionStep (sorter : FileSorter) (input : List Byte) (s : DriverState) (i : Nat) :
    DriverState :=
  if s.status ≠ .ok then s
  else
    let region_file := s.region_file.getD s.names_used
    let names_used := if s.region_file.isNone then s.names_used + 1 else s.names_used
    let offset := i * sorter.region_size_
    let r := sortRegion sorter.page_size input offset
      (min sorter.region_size_ (input.length - offset)) (s.temp_dir region_file)
      s.last_partial_line
    { status := r.status,
      temp_dir := Function.update s.temp_dir region_file (some r.output_file),
      names_used := names_used,
      region_files := if r.written then s.region_files ++ [region_file] else s.region_files,
      last_partial_line := r.partial_line,
      region_file := if r.written then none else some region_file }

/-- The first `n` passes of the region loop of `sortFile`, from an empty temp directory. -/
def regionPass (sorter : FileSorter) (input : List Byte) (n : Nat) : DriverState :=
  (List.range n).foldl (regionStep sorter input)
    { status := .ok, temp_dir := fun _ => none, names_used := 0, region_files := [],
      last_partial_line := none, region_file := none }

/-- The statement `if (last_partial_line.has_value()) { ... }` of `sortFile`, which writes the
carry-over and a newline to a run file of its own. -/
def carryRun (s : DriverState) : DriverState :=
  match s.last_partial_line with
  | none => s
  | some line =>
    { s with
      temp_dir := Function.update s.temp_dir s.names_used (some (line ++ [NL])),
      names_used := s.names_used + 1,
      region_files := s.region_files ++ [s.names_used] }

/-- The function `FileSorter::sortFile(input_path, output_path)` for a regular input file with
contents `input`; `output_file` is the contents of the regular file at the output path before
the call (`none` if there is none). -/
def sortFile (sorter : FileSorter) (input : List Byte) (output_file : Option (List Byte)) :
    FileOutcome :=
  if sorter.region_size_ = 0 then { status := .divisionByZero, output_file := output_file }
  else
    let num_regions := (input.length + sorter.region_size_ - 1) / sorter.region_size_
    let s := regionPass sorter input num_regions
    if s.status ≠ .ok then { status := s.status, output_file := output_file }
    else
      let s1 := carryRun s
      mergeRegions sorter (s1.region_files.map (fun p => (s1.temp_dir p).getD [])) output_file

/-- The contents of the run files in `region_files` when `sortFile` calls `mergeRegions`. -/
def sortFileRuns (sorter : FileSorter) (input : List Byte) : List (List Byte) :=
  (carryRun (regionPass sorter input
      ((input.length + sorter.region_size_ - 1) / sorter.region_size_))).region_files.map
    (fun p =>
      ((carryRun (regionPass sorter input
        ((input.length + sorter.region_size_ - 1) / sorter.region_size_))).temp_dir p).getD [])

/-- The value of `num_regions` in `sortFile` for an input of `size` bytes. -/
def numRegions (region_size_ size : Nat) : Nat :=
  (size + region_size_ - 1) / region_size_

/-- The arguments `offset` and `in_size` of the call of `sortRegion` in pass `i` of the region
loop of `sortFile`, for an input of `size` bytes. -/
def regionWindow (region_size_ size i : Nat) : Nat × Nat :=
  (i * region_size_, min region_size_ (size - i * region_size_))

/-! fsort.hpp: the constructor -/

/-- The constructor `FileSorter::FileSorter(temp_dir, num_pages_hint)` on a system whose
`getPageSize()` is `page_size`: the sorter, or `none` when the constructor throws. `is_dir` is
the value of `fs::is_directory(temp_dir_)`. The product `page_size * num_pages_hint_` is a product
of `size_t` values, taken modulo `2^64`. -/
def FileSorter.new (is_dir : Bool) (page_size num_pages_hint : Nat) : Option FileSorter :=
  if !is_dir then none
  else if 2 ^ 32 ≤ (page_size * num_pages_hint) % 2 ^ 64 then none
  else
    some
      { page_size := page_size, num_pages_hint_ := num_pages_hint,
        region_size_ := (page_size * num_pages_hint) % 2 ^ 64 }

/-! fsort.hpp: the points of the merge loop -/

/-- A point of the merge loop of `mergeRegions`: the output side at that point, the number of
bytes stored to the output so far, and whether the point is the one right before a window
rollover (in `if (output_pos == output->end())`, before `output_file_offset += region_size_`). -/
structure Point where
  out : Output
  stored : Nat
  rollover : Bool
deriving DecidableEq

/-- The points of one pass through the body of the copy loop (`copyBody`): the point behind
`std::copy_n` and the two `+=`, and, if the window is rolled over, the point behind the
rollover. -/
def copyBodyPoints (page_size region_size_ size : Nat) (line : List Byte) (o : Output)
    (stored line_pos bytes_to_copy : Nat) : List Point :=
  if (o.store ((line.drop line_pos).take bytes_to_copy)).status ≠ .ok then
    [{ out := o.store ((line.drop line_pos).take bytes_to_copy), stored := stored,
       rollover := false }]
  else if (o.store ((line.drop line_pos).take bytes_to_copy)).output_pos + bytes_to_copy =
      (o.store ((line.drop line_pos).take bytes_to_copy)).window then
    [{ out := (o.store ((line.drop line_pos).take bytes_to_copy)).advance bytes_to_copy,
       stored := stored + bytes_to_copy, rollover := true },
     { out := copyBody page_size region_size_ size line o line_pos bytes_to_copy,
       stored := stored + bytes_to_copy, rollover := false }]
  else
    [{ out := copyBody page_size region_size_ size line o line_pos bytes_to_copy,
       stored := stored + bytes_to_copy, rollover := false }]

/-- The points of the copy loop (`copyLoop`) behind its entry, pass by pass. -/
def copyPoints (page_size region_size_ size : Nat) (line : List Byte) :
    Nat → Output → Nat → Nat → Nat → List Point
  | 0, o, stored, _, bytes_to_copy =>
    if 0 < bytes_to_copy ∨ o.output_pos = o.window then
      [{ out := { o with status := .diverged }, stored := stored, rollover := false }]
    else []
  | fuel + 1, o, stored, line_pos, bytes_to_copy =>
    if 0 < bytes_to_copy ∨ o.output_pos = o.window then
      copyBodyPoints page_size region_size_ size line o stored line_pos bytes_to_copy ++
        (if (copyBody page_size region_size_ size line o line_pos bytes_to_copy).status ≠ .ok
          then []
          else copyPoints page_size region_size_ size line fuel
            (copyBody page_size region_size_ size line o line_pos bytes_to_copy)
            (stored + bytes_to_copy) (line_pos + bytes_to_copy)
            (min (line.length - (line_pos + bytes_to_copy))
              ((copyBody page_size region_size_ size line o line_pos bytes_to_copy).window -
                (copyBody page_size region_size_ size line o line_pos
                  bytes_to_copy).output_pos)))
    else []

/-- The number of bytes stored at the last point of `points`, `stored` if there is no point. -/
def storedAfter (stored : Nat) (points : List Point) : Nat :=
  (points.getLast?.map Point.stored).getD stored

/-- The points of the statements that write one line and its newline (`emitLine`): those of the
copy loop and the point behind `*(output_pos++) = '\n'`. -/
def emitPoints (page_size region_size_ size : Nat) (line : List Byte) (o : Output)
    (stored : Nat) : List Point :=
  let points := copyPoints page_size region_size_ size line (2 * line.length + 3) o stored 0
    (min (o.window - o.output_pos) line.length)
  let o1 := copyLoop page_size region_size_ size line (2 * line.length + 3) o 0
    (min (o.window - o.output_pos) line.length)
  if o1.status ≠ .ok then points
  else if (o1.store [NL]).status ≠ .ok then
    points ++ [{ out := o1.store [NL], stored := storedAfter stored points, rollover := false }]
  else
    points ++
      [{ out := (o1.store [NL]).advance 1, stored := storedAfter stored points + 1,
         rollover := false }]

/-- The points of the loop `while (!heap.empty())` of `mergeRegions` (`mergeLoop`) behind its
entry. -/
def mergePoints (page_size region_size_ size : Nat) :
    Nat → List RegionLine → Output → Nat → List Point
  | _, [], _, _ => []
  | 0, _ :: _, o, stored =>
    [{ out := { o with status := .diverged }, stored := stored, rollover := false }]
  | fuel + 1, top :: heap, o, stored =>
    emitPoints page_size region_size_ size top.line o stored ++
      (if (emitLine page_size region_size_ size top.line o).status ≠ .ok then []
        else mergePoints page_size region_size_ size fuel (advanceRun top heap)
          (emitLine page_size region_size_ size top.line o)
          (storedAfter stored (emitPoints page_size region_size_ size top.line o stored)))

/-- The points of the merge loop in a call of `mergeRegions`, from the point behind the mapping
of the first window on; there is none when a constructor of a mapping throws before the loop. -/
def mergeRegionsPoints (sorter : FileSorter) (region_files : List (List Byte))
    (output_file : Option (List Byte)) : List Point :=
  if region_files.any (fun run => !mapped sorter.page_size 0 run.length) then []
  else if (mapOutput sorter.page_size sorter.region_size_ (region_files.map List.length).sum
      (resizeFile (output_file.getD []) (region_files.map List.length).sum) 0).status ≠ .ok
    then []
  else
    { out := mapOutput sorter.page_size sorter.region_size_ (region_files.map List.length).sum
        (resizeFile (output_file.getD []) (region_files.map List.length).sum) 0,
      stored := 0, rollover := false } ::
      mergePoints sorter.page_size sorter.region_size_ (region_files.map List.length).sum
        (region_files.map List.length).sum (seedHeap region_files [])
        (mapOutput sorter.page_size sorter.region_size_ (region_files.map List.length).sum
          (resizeFile (output_file.getD []) (region_files.map List.length).sum) 0) 0

/-! Lines of a byte sequence, in the words of the specification -/

/-- Splitting on newline bytes, from left to right; `cur` holds the bytes of the segment
that is being read. The result ends with the segment behind the last newline. -/
def splitFrom : List Byte → List Byte → List (List Byte)
  | cur, [] => [cur]
  | cur, b :: bs => if b = NL then cur :: splitFrom [] bs else splitFrom (cur ++ [b]) bs

/-- The newline-terminated segments of a byte sequence (its complete lines), without their
newlines. -/
def completeLines (s : List Byte) : List (List Byte) :=
  (splitFrom [] s).dropLast

/-- The final unterminated segment of a byte sequence: its bytes behind the last newline. -/
def lastSegment (s : List Byte) : List Byte :=
  (splitFrom [] s).getLastD []

/-- The lines of a byte sequence: its newline-terminated segments, plus its final unterminated
segment when that segment is non-empty. -/
def linesOf (s : List Byte) : List (List Byte) :=
  completeLines s ++ (if lastSegment s = [] then [] else [lastSegment s])

/-- Lines written one after the other, each followed by one newline byte. -/
def terminated (lines : List (List Byte)) : List Byte :=
  lines.flatMap (fun line => line ++ [NL])

/-- Lines joined by single newline bytes, no newline after the last one. -/
def joined : List (List Byte) → List Byte
  | [] => []
  | [line] => line
  | line :: rest => line ++ NL :: joined rest

/-- The carry-over that stands for a final segment: absent when the segment is empty. -/
def carryOf (segment : List Byte) : Option (List Byte) :=
  if segment = [] then none else some segment

/-! Invariants of the merge and of the region pass -/

/-- The state of the output side of `mergeRegions` after the bytes `bytes` have been written:
the file holds them at its start, the write position stands right behind them, and the mapped
window is the part of the file from `output_file_offset` on, at most `region_size_` long. -/
structure OutInv (size region_size_ : Nat) (o : Output) (bytes : List Byte) : Prop where
  status_ok : o.status = .ok
  file_len : o.file.length = size
  written : o.output_file_offset + o.output_pos = bytes.length
  file_start : o.file.take bytes.length = bytes
  offset_le : o.output_file_offset ≤ size
  window_eq : o.window = min (size - o.output_file_offset) region_size_
  pos_le : o.output_pos ≤ o.window

/-- A run file in the form the region pass and the driver write it: not empty, every line
followed by a newline byte, the lines in ascending order. -/
def WellFormedRun (run : List Byte) : Prop :=
  run ≠ [] ∧ lastSegment run = [] ∧ (completeLines run).Sorted LineLe

instance instDecidableWellFormedRun (run : List Byte) : Decidable (WellFormedRun run) := by
  unfold WellFormedRun
  infer_instance

/-- The lines that a heap entry stands for: its current line and the lines behind it in
its run. -/
def pending (e : RegionLine) : List (List Byte) :=
  e.line :: completeLines (e.mem.drop (e.region_pos + 1))

/-- A heap entry of the merge over well-formed runs: `region_pos` points at the newline behind
`line`, the lines `rest` follow it in the run, in ascending order. -/
def EntryOK (e : RegionLine) (rest : List (List Byte)) : Prop :=
  e.region_end = e.mem.length ∧ NL ∉ e.line ∧ (∀ l ∈ rest, NL ∉ l) ∧
    e.mem.drop e.region_pos = NL :: terminated rest ∧ (e.line :: rest).Sorted LineLe

/-- The heap of the merge over well-formed runs: in ascending order of the lines, every entry
standing at a line of its run. -/
def HeapOK (heap : List RegionLine) : Prop :=
  heap.Sorted EntryLe ∧ ∀ e ∈ heap, ∃ rest, EntryOK e rest

/-- The state of the region pass of `sortFile` after the bytes `consumed` of the input have been
processed: the carry-over is the unterminated segment at their end, the run files written so far
are well-formed and hold the complete lines among them, and the path in `region_file` is none of
the run files. -/
structure PassInv (consumed : List Byte) (s : DriverState) : Prop where
  status_ok : s.status = .ok
  carry : s.last_partial_line = carryOf (lastSegment consumed)
  runs_ok : ∀ p ∈ s.region_files, WellFormedRun ((s.temp_dir p).getD [])
  lines : ((s.region_files.map (fun p => (s.temp_dir p).getD [])).flatMap completeLines).Perm
    (completeLines consumed)
  files_lt : ∀ p ∈ s.region_files, p < s.names_used
  file_lt : ∀ q, s.region_file = some q → q < s.names_used ∧ q ∉ s.region_files

/-- A run file that is not empty and in which every line is followed by a newline byte. -/
def TerminatedRun (run : List Byte) : Prop :=
  run ≠ [] ∧ lastSegment run = []

instance instDecidableTerminatedRun (run : List Byte) : Decidable (TerminatedRun run) := by
  unfold TerminatedRun
  infer_instance

/-- A heap entry of the merge over runs in which every line is followed by a newline:
`region_pos` points at the newline behind `line`, the lines `rest` follow it in the run. -/
def EntryAt (e : RegionLine) (rest : List (List Byte)) : Prop :=
  e.region_end = e.mem.length ∧ NL ∉ e.line ∧ (∀ l ∈ rest, NL ∉ l) ∧
    e.mem.drop e.region_pos = NL :: terminated rest

/-- A point of the merge loop on the way to the output `target`: the bytes stored so far are a
beginning of `target` and stand at the start of the file, the write position stands right behind
them, the window is not empty, and a rollover happens out of a full window of `region_size_`
bytes. -/
def Tracked (size region_size_ : Nat) (target : List Byte) (p : Point) : Prop :=
  ∃ bytes, OutInv size region_size_ p.out bytes ∧ p.stored = bytes.length ∧
    bytes <+: target ∧ 0 < p.out.window ∧
    (p.rollover = true → p.out.window = region_size_ ∧ p.out.output_pos = p.out.window)

/-! The order on lines -/

theorem lineLe_refl (a : List Byte) : lineLe a a = true := by
  induction a with
  | nil => rfl
  | cons x xs ih => simp [lineLe, ih]

theorem lineLe_total (a b : List Byte) : lineLe a b = true ∨ lineLe b a = true := by
  induction a generalizing b with
  | nil => left; rfl
  | cons x xs ih =>
    cases b with
    | nil => right; rfl
    | cons y ys =>
      simp only [lineLe]
      rcases lt_trichotomy x y with h | h | h
      · left; simp [h]
      · subst h; simpa using ih ys
      · right; simp [h]

theorem lineLe_trans {a b c : List Byte} (hab : lineLe a b = true) (hbc : lineLe b c = true) :
    lineLe a c = true := by
  induction a generalizing b c with
  | nil => rfl
  | cons x xs ih =>
    cases b with
    | nil => simp [lineLe] at hab
    | cons y ys =>
      cases c with
      | nil => simp [lineLe] at hbc
      | cons z zs =>
        simp only [lineLe] at hab hbc ⊢
        by_cases hxy : x < y
        · by_cases hyz : y < z
          · simp [lt_trans hxy hyz]
          · by_cases hzy : z < y
            · simp [hyz, hzy] at hbc
            · have : y = z := le_antisymm (not_lt.mp hzy) (not_lt.mp hyz)
              subst this; simp [hxy]
        · by_cases hyx : y < x
          · simp [hxy, hyx] at hab
          · have hxy' : x = y := le_antisymm (not_lt.mp hyx) (not_lt.mp hxy)
            subst hxy'
            simp only [hxy, if_false] at hab
            by_cases hxz : x < z
            · simp [hxz]
            · by_cases hzx : z < x
              · simp [hxz, hzx] at hbc
              · simp only [hxz, hzx, if_false] at hbc ⊢
                exact ih hab hbc

theorem lineLe_antisymm {a b : List Byte} (hab : lineLe a b = true) (hba : lineLe b a = true) :
    a = b := by
  induction a generalizing b with
  | nil =>
    cases b with
    | nil => rfl
    | cons y ys => simp [lineLe] at hba
  | cons x xs ih =>
    cases b with
    | nil => simp [lineLe] at hab
    | cons y ys =>
      simp only [lineLe] at hab hba
      by_cases hxy : x < y
      · simp [hxy, not_lt_of_lt hxy] at hba
      · by_cases hyx : y < x
        · simp [hxy, hyx] at hab
        · have : x = y := le_antisymm (not_lt.mp hyx) (not_lt.mp hxy)
          subst this
          simp only [hxy, if_false] at hab hba
          rw [ih hab hba]

instance instIsTotalLineLe : IsTotal (List Byte) LineLe := ⟨lineLe_total⟩

instance instIsTransLineLe : IsTrans (List Byte) LineLe := ⟨fun _ _ _ => lineLe_trans⟩

instance instIsTotalEntryLe : IsTotal RegionLine EntryLe :=
  ⟨fun a b => lineLe_total a.line b.line⟩

instance instIsTransEntryLe : IsTrans RegionLine EntryLe := ⟨fun _ _ _ => lineLe_trans⟩

instance instIsAntisymmLineLe : IsAntisymm (List Byte) LineLe := ⟨fun _ _ => lineLe_antisymm⟩

theorem lineLe_false_iff (a b : List Byte) : lineLe a b = false ↔ b < a := by
  induction a generalizing b with
  | nil =>
    simp only [lineLe]
    constructor
    · intro h; cases h
    · intro h; cases h
  | cons x xs ih =>
    cases b with
    | nil => simp only [lineLe]; exact ⟨fun _ => List.Lex.nil, fun _ => trivial⟩
    | cons y ys =>
      simp only [lineLe]
      constructor
      · intro h
        by_cases hxy : x < y
        · simp [hxy] at h
        · by_cases hyx : y < x
          · exact List.Lex.rel hyx
          · simp only [hxy, hyx, if_false] at h
            have : x = y := le_antisymm (not_lt.mp hyx) (not_lt.mp hxy)
            subst this
            exact List.Lex.cons ((ih ys).mp h)
      · intro h
        cases h with
        | rel h => simp [h, not_lt_of_lt h]
        | cons h3 => simp only [lt_irrefl, if_false]; exact (ih ys).mpr h3

/-- The function `lineLe` decides the lexicographic order `≤` on lists of bytes. -/
theorem lineLe_iff_le (a b : List Byte) : lineLe a b = true ↔ a ≤ b := by
  rw [← not_lt, ← lineLe_false_iff]; simp

/-! Splitting into lines -/

theorem getLastD_cons_of_ne_nil {α : Type} {l : List α} (h : l ≠ []) (a d : α) :
    (a :: l).getLastD d = l.getLastD d := by
  cases l with
  | nil => exact absurd rfl h
  | cons x xs => simp [List.getLastD]

theorem splitFrom_ne_nil (cur s : List Byte) : splitFrom cur s ≠ [] := by
  induction s generalizing cur with
  | nil => simp [splitFrom]
  | cons b bs ih =>
    simp only [splitFrom]
    split
    · simp
    · exact ih _

theorem splitFrom_append_of_not_mem {l : List Byte} (hl : NL ∉ l) (cur s : List Byte) :
    splitFrom cur (l ++ s) = splitFrom (cur ++ l) s := by
  induction l generalizing cur with
  | nil => simp
  | cons b bs ih =>
    have hb : b ≠ NL := fun h => hl (by simp [h])
    have hbs : NL ∉ bs := fun h => hl (by simp [h])
    show splitFrom cur (b :: (bs ++ s)) = _
    simp only [splitFrom, hb, if_false]
    rw [ih hbs]
    simp

theorem splitFrom_of_not_mem {l : List Byte} (hl : NL ∉ l) (cur : List Byte) :
    splitFrom cur l = [cur ++ l] := by
  have := splitFrom_append_of_not_mem hl cur []
  simpa [splitFrom] using this

theorem splitFrom_line {l : List Byte} (hl : NL ∉ l) (cur r : List Byte) :
    splitFrom cur (l ++ NL :: r) = (cur ++ l) :: splitFrom [] r := by
  rw [splitFrom_append_of_not_mem hl]
  simp [splitFrom]

theorem splitFrom_append (cur p w : List Byte) :
    splitFrom cur (p ++ w) =
      (splitFrom cur p).dropLast ++ splitFrom ((splitFrom cur p).getLastD []) w := by
  induction p generalizing cur with
  | nil => simp [splitFrom]
  | cons b bs ih =>
    show splitFrom cur (b :: (bs ++ w)) = _
    simp only [splitFrom]
    split
    · rw [ih, List.dropLast_cons_of_ne_nil (splitFrom_ne_nil [] bs),
        getLastD_cons_of_ne_nil (splitFrom_ne_nil [] bs)]
      simp
    · exact ih _

theorem not_mem_of_mem_splitFrom {cur : List Byte} (hc : NL ∉ cur) (s : List Byte) :
    ∀ l ∈ splitFrom cur s, NL ∉ l := by
  induction s generalizing cur with
  | nil => simpa [splitFrom] using hc
  | cons b bs ih =>
    simp only [splitFrom]
    split
    · intro l hl
      rcases List.mem_cons.mp hl with h | h
      · rw [h]; exact hc
      · exact ih (by simp) l h
    · rename_i hb
      apply ih
      simp only [List.mem_append, List.mem_singleton, not_or]
      exact ⟨hc, fun h => hb h.symm⟩

theorem terminated_nil : terminated [] = [] := rfl

theorem terminated_cons (l : List Byte) (ls : List (List Byte)) :
    terminated (l :: ls) = l ++ NL :: terminated ls := by
  simp [terminated]

theorem terminated_append (xs ys : List (List Byte)) :
    terminated (xs ++ ys) = terminated xs ++ terminated ys := by
  simp [terminated]

theorem splitFrom_rebuild (cur s : List Byte) :
    terminated (splitFrom cur s).dropLast ++ (splitFrom cur s).getLastD [] = cur ++ s := by
  induction s generalizing cur with
  | nil => simp [splitFrom, terminated]
  | cons b bs ih =>
    simp only [splitFrom]
    split
    · rename_i hb
      rw [List.dropLast_cons_of_ne_nil (splitFrom_ne_nil [] bs),
        getLastD_cons_of_ne_nil (splitFrom_ne_nil [] bs), terminated_cons, List.append_assoc,
        List.cons_append, ih []]
      simp [hb]
    · rw [ih]; simp

theorem splitFrom_terminated {ls : List (List Byte)} (h : ∀ l ∈ ls, NL ∉ l) :
    splitFrom [] (terminated ls) = ls ++ [[]] := by
  induction ls with
  | nil => simp [terminated, splitFrom]
  | cons l ls ih =>
    rw [terminated_cons, splitFrom_line (h l (by simp)), ih (fun x hx => h x (by simp [hx]))]
    simp

theorem linesOf_terminated {ls : List (List Byte)} (h : ∀ l ∈ ls, NL ∉ l) :
    linesOf (terminated ls) = ls := by
  simp [linesOf, completeLines, lastSegment, splitFrom_terminated h]

theorem exists_first_newline {s : List Byte} (h : NL ∈ s) :
    ∃ l r, s = l ++ NL :: r ∧ NL ∉ l := by
  induction s with
  | nil => simp at h
  | cons b bs ih =>
    by_cases hb : b = NL
    · exact ⟨[], bs, by simp [hb], by simp⟩
    · have hbs : NL ∈ bs := by
        rcases List.mem_cons.mp h with h1 | h1
        · exact absurd h1.symm hb
        · exact h1
      obtain ⟨l, r, hs, hl⟩ := ih hbs
      refine ⟨b :: l, r, by simp [hs], ?_⟩
      simp only [List.mem_cons, not_or]
      exact ⟨fun h => hb h.symm, hl⟩

/-! nextLine -/

theorem drop_eq_cons {mem : List Byte} {pos : Nat} {b : Byte} {t : List Byte}
    (h : mem.drop pos = b :: t) : mem.getD pos 0 = b ∧ mem.drop (pos + 1) = t := by
  induction mem generalizing pos with
  | nil => simp at h
  | cons x xs ih =>
    cases pos with
    | zero =>
      simp only [List.drop_zero, List.cons.injEq] at h
      simp [h.1, h.2]
    | succ n =>
      simp only [List.drop_succ_cons] at h
      have := ih h
      simpa using this

theorem view_of_drop {mem : List Byte} {pos : Nat} {l rest : List Byte}
    (h : mem.drop pos = l ++ rest) : view mem pos (pos + l.length) = l := by
  simp [view, h]

theorem nextLinePos_newline {l : List Byte} (hl : NL ∉ l) (mem post : List Byte)
    (end_ fuel pos : Nat) (hmem : mem.drop pos = l ++ NL :: post)
    (hend : pos + l.length < end_) (hfuel : l.length < fuel) :
    nextLinePos mem end_ fuel pos = pos + l.length := by
  induction l generalizing pos fuel with
  | nil =>
    obtain ⟨f, rfl⟩ : ∃ f, fuel = f + 1 := ⟨fuel - 1, by simp at hfuel; omega⟩
    simp only [List.length_nil, Nat.add_zero] at hend
    have := (drop_eq_cons (by simpa using hmem)).1
    simp only [nextLinePos, hend, if_true, this, List.length_nil, Nat.add_zero]
  | cons b bs ih =>
    obtain ⟨f, rfl⟩ : ∃ f, fuel = f + 1 := ⟨fuel - 1, by simp at hfuel; omega⟩
    have hb : b ≠ NL := fun h => hl (by simp [h])
    have hbs : NL ∉ bs := fun h => hl (by simp [h])
    simp only [List.length_cons] at hend hfuel
    have hlt : pos < end_ := by omega
    have hd := drop_eq_cons (by simpa using hmem : mem.drop pos = b :: (bs ++ NL :: post))
    have := ih hbs f (pos + 1) hd.2 (by omega) (by omega)
    simp only [nextLinePos, hlt, if_true, hd.1, hb, if_false, this, List.length_cons]
    omega

theorem nextLinePos_end {l : List Byte} (hl : NL ∉ l) (mem post : List Byte)
    (end_ fuel pos : Nat) (hmem : mem.drop pos = l ++ post)
    (hend : end_ = pos + l.length) (hfuel : l.length ≤ fuel) :
    nextLinePos mem end_ fuel pos = end_ := by
  induction l generalizing pos fuel with
  | nil =>
    simp only [List.length_nil, Nat.add_zero] at hend
    cases fuel <;> simp [nextLinePos, hend]
  | cons b bs ih =>
    obtain ⟨f, rfl⟩ : ∃ f, fuel = f + 1 := ⟨fuel - 1, by simp at hfuel; omega⟩
    have hb : b ≠ NL := fun h => hl (by simp [h])
    have hbs : NL ∉ bs := fun h => hl (by simp [h])
    simp only [List.length_cons] at hend hfuel
    have hlt : pos < end_ := by omega
    have hd := drop_eq_cons (by simpa using hmem : mem.drop pos = b :: (bs ++ post))
    have := ih hbs f (pos + 1) hd.2 (by omega) (by omega)
    simp only [nextLinePos, hlt, if_true, hd.1, hb, if_false, this]

theorem nextLine_newline {l : List Byte} (hl : NL ∉ l) (mem post : List Byte)
    (pos end_ : Nat) (hmem : mem.drop pos = l ++ NL :: post) (hend : pos + l.length < end_) :
    nextLine mem pos end_ = (l, pos + l.length) := by
  simp only [nextLine]
  rw [nextLinePos_newline hl mem post end_ _ pos hmem hend (by omega), view_of_drop hmem]

theorem nextLine_end {l : List Byte} (hl : NL ∉ l) (mem post : List Byte)
    (pos end_ : Nat) (hmem : mem.drop pos = l ++ post) (hend : end_ = pos + l.length) :
    nextLine mem pos end_ = (l, end_) := by
  simp only [nextLine]
  rw [nextLinePos_end hl mem post end_ _ pos hmem hend (by omega)]
  rw [hend, view_of_drop hmem]

/-! sortRegion: the scanning loop -/

theorem carryOf_getD (seg : List Byte) : (carryOf seg).getD [] = seg := by
  unfold carryOf
  split
  · rename_i h; simp [h]
  · simp

theorem scanLoop_done (mem : List Byte) (end_ fuel : Nat) (s : ScanState) (h : end_ ≤ s.it) :
    scanLoop mem end_ fuel s = s := by
  cases fuel with
  | zero => rfl
  | succ f => simp [scanLoop, Nat.not_lt.mpr h]

theorem scanBody_eq (mem : List Byte) (end_ : Nat) (s : ScanState) (line : List Byte) (p : Nat)
    (hn : nextLine mem s.it end_ = (line, p))
    (hs : s.partial_line_processed = true → s.partial_line = none) :
    scanBody mem end_ s =
      if p = end_ then
        { it := p + 1,
          partial_line_processed := s.partial_line_processed || s.partial_line.isSome,
          partial_line := some (s.partial_line.getD [] ++ line), lines := s.lines }
      else
        { it := p + 1,
          partial_line_processed := s.partial_line_processed || s.partial_line.isSome,
          partial_line := none, lines := s.lines ++ [s.partial_line.getD [] ++ line] } := by
  obtain ⟨it, processed, partial_line, lines⟩ := s
  simp only at hn hs
  simp only [scanBody, hn]
  cases processed with
  | true =>
    rw [hs rfl]
    simp
  | false =>
    cases partial_line with
    | none => simp
    | some c => simp

theorem scanLoop_spec (mem post : List Byte) :
    ∀ (fuel : Nat) (rest : List Byte) (s : ScanState), rest ≠ [] →
      mem.drop s.it = rest ++ post → rest.length ≤ fuel →
      (s.partial_line_processed = true → s.partial_line = none) →
      (scanLoop mem (s.it + rest.length) fuel s).lines =
          s.lines ++ (splitFrom (s.partial_line.getD []) rest).dropLast ∧
        (scanLoop mem (s.it + rest.length) fuel s).partial_line =
          carryOf ((splitFrom (s.partial_line.getD []) rest).getLastD []) := by
  intro fuel
  induction fuel with
  | zero =>
    intro rest s hne _ hfuel _
    exact absurd (List.length_eq_zero.mp (Nat.le_zero.mp hfuel)) hne
  | succ f ih =>
    intro rest s hne hmem hfuel hs
    have hpos : 0 < rest.length := List.length_pos.mpr hne
    have hlt : s.it < s.it + rest.length := by omega
    simp only [scanLoop, hlt, if_true]
    by_cases hnl : NL ∈ rest
    · obtain ⟨l, r, hrest, hl⟩ := exists_first_newline hnl
      subst hrest
      simp only [List.length_append, List.length_cons] at hfuel hlt ⊢
      have hn := nextLine_newline hl mem (r ++ post) s.it (s.it + (l.length + (r.length + 1)))
        (by simpa using hmem) (by omega)
      rw [scanBody_eq mem _ s l _ hn hs]
      have hp : ¬ (s.it + l.length = s.it + (l.length + (r.length + 1))) := by omega
      simp only [hp, if_false]
      rw [splitFrom_line hl]
      rw [List.dropLast_cons_of_ne_nil (splitFrom_ne_nil [] r),
        getLastD_cons_of_ne_nil (splitFrom_ne_nil [] r)]
      by_cases hr : r = []
      · subst hr
        rw [scanLoop_done _ _ _ _ (by simp; omega)]
        simp [splitFrom, carryOf]
      · have hdrop : mem.drop (s.it + l.length + 1) = r ++ post := by
          have : s.it + l.length + 1 = s.it + (l.length + 1) := by omega
          rw [this, ← List.drop_drop, hmem]
          simp
        have := ih r
          { it := s.it + l.length + 1,
            partial_line_processed := s.partial_line_processed || s.partial_line.isSome,
            partial_line := none, lines := s.lines ++ [s.partial_line.getD [] ++ l] }
          hr hdrop (by omega) (fun _ => rfl)
        simp only [Option.getD_none] at this
        have e : s.it + (l.length + (r.length + 1)) = s.it + l.length + 1 + r.length := by omega
        rw [e]
        simpa using this
    · have hn := nextLine_end hnl mem post s.it (s.it + rest.length) hmem rfl
      rw [scanBody_eq mem _ s rest _ hn hs]
      simp only [if_true]
      rw [scanLoop_done _ _ _ _ (by simp)]
      rw [splitFrom_of_not_mem hnl]
      simp [carryOf, hne]

/-! sortRegion: mapping, sorting and writing -/

theorem mapped_of_pos {page_size size : Nat} (hp : 0 < page_size) (hs : 0 < size)
    (offset : Nat) : mapped page_size offset size = true := by
  have h1 : 0 < (size + (offset - floorToDivisible offset page_size) + page_size - 1) / page_size :=
    Nat.div_pos (by omega) hp
  have h2 := Nat.mul_pos h1 hp
  simp only [mapped, mmapFailed, legalSize, ceilToDivisible, Bool.not_eq_true', beq_eq_false_iff_ne]
  omega

theorem mapped_zero (page_size : Nat) : mapped page_size 0 0 = false := by
  simp only [mapped, mmapFailed, legalSize, ceilToDivisible, floorToDivisible]
  rcases Nat.eq_zero_or_pos page_size with h | h
  · simp [h]
  · have : (page_size - 1) / page_size = 0 := Nat.div_eq_of_lt (by omega)
    simp [this]

theorem length_terminated_perm {xs ys : List (List Byte)} (h : xs.Perm ys) :
    (terminated xs).length = (terminated ys).length := by
  induction h with
  | nil => rfl
  | cons x _ ih => simp [terminated_cons, ih]
  | swap x y l => simp [terminated_cons]; omega
  | trans _ _ ih1 ih2 => exact ih1.trans ih2

theorem stdSort_perm (lines : List (List Byte)) : (stdSort lines).Perm lines :=
  List.perm_insertionSort _ lines

theorem stdSort_sorted (lines : List (List Byte)) : (stdSort lines).Sorted LineLe :=
  List.sorted_insertionSort _ lines

theorem stdSort_eq_of_perm {xs ys : List (List Byte)} (h : xs.Perm ys) :
    stdSort xs = stdSort ys :=
  List.eq_of_perm_of_sorted (((stdSort_perm xs).trans h).trans (stdSort_perm ys).symm)
    (stdSort_sorted xs) (stdSort_sorted ys)

theorem stdSort_eq_self {xs : List (List Byte)} (h : xs.Sorted LineLe) : stdSort xs = xs :=
  List.eq_of_perm_of_sorted (stdSort_perm xs) (stdSort_sorted xs) h

theorem stdSort_isEmpty (lines : List (List Byte)) :
    (stdSort lines).isEmpty = lines.isEmpty := by
  cases lines with
  | nil => rfl
  | cons x xs =>
    have := (stdSort_perm (x :: xs)).length_eq
    cases h : stdSort (x :: xs) with
    | nil => rw [h] at this; simp at this
    | cons y ys => rfl

theorem set_length_append_cons (A : List Byte) (b x : Byte) (B : List Byte) :
    (A ++ b :: B).set A.length x = A ++ x :: B := by
  induction A with
  | nil => rfl
  | cons a A ih => simp [ih]

theorem writeLines_append (lines : List (List Byte)) :
    ∀ (A B : List Byte), (terminated lines).length ≤ B.length →
      writeLines lines (A ++ B) A.length =
        some (A ++ terminated lines ++ B.drop (terminated lines).length,
          A.length + (terminated lines).length) := by
  induction lines with
  | nil => intro A B _; simp [writeLines, terminated]
  | cons line rest ih =>
    intro A B h
    simp only [terminated_cons, List.length_append, List.length_cons] at h ⊢
    have h1 : A.length + line.length ≤ (A ++ B).length := by simp; omega
    have h2 : A.length + line.length < (A ++ B).length := by simp; omega
    have hB : line.length < B.length := by omega
    have hd : (A ++ B).drop (A.length + line.length) =
        B[line.length] :: B.drop (line.length + 1) := by
      rw [List.drop_append]
      exact List.drop_eq_getElem_cons hB
    have ht : (A ++ B).take A.length = A := List.take_left' rfl
    simp only [writeLines, h1, h2, if_true, hd, ht]
    have hset : (A ++ line ++ B[line.length] :: B.drop (line.length + 1)).set
        (A.length + line.length) NL = (A ++ line ++ [NL]) ++ B.drop (line.length + 1) := by
      have := set_length_append_cons (A ++ line) B[line.length] NL (B.drop (line.length + 1))
      simpa using this
    have hl : A.length + line.length + 1 = (A ++ line ++ [NL]).length := by simp; omega
    rw [hset, hl, ih (A ++ line ++ [NL]) (B.drop (line.length + 1)) (by simp; omega)]
    simp only [List.drop_drop, List.length_append, List.length_singleton, List.append_assoc,
      List.singleton_append, List.cons_append, List.nil_append, Option.some.injEq, Prod.mk.injEq]
    constructor
    · rw [show line.length + 1 + (terminated rest).length =
        line.length + ((terminated rest).length + 1) by omega]
    · omega

theorem writeLines_spec (lines : List (List Byte)) (out : List Byte)
    (h : (terminated lines).length ≤ out.length) :
    writeLines lines out 0 =
      some (terminated lines ++ out.drop (terminated lines).length,
        (terminated lines).length) := by
  have := writeLines_append lines [] out h
  simpa using this

theorem length_resizeFile (file : List Byte) (n : Nat) : (resizeFile file n).length = n := by
  simp only [resizeFile, List.length_append, List.length_take, List.length_replicate]
  omega

theorem resizeFile_append_left (A B : List Byte) : resizeFile (A ++ B) A.length = A := by
  simp [resizeFile]

theorem length_terminated_dropLast_le (cur s : List Byte) :
    (terminated (splitFrom cur s).dropLast).length ≤ s.length + cur.length := by
  have := congrArg List.length (splitFrom_rebuild cur s)
  simp only [List.length_append] at this
  omega

/-- What `sortRegion` does on a non-empty window `w` of the input. -/
theorem sortRegion_spec {page_size : Nat} (hp : 0 < page_size) (pre w post : List Byte)
    (hw : w ≠ []) (old carry : Option (List Byte)) :
    sortRegion page_size (pre ++ w ++ post) pre.length w.length old carry =
      { status := .ok,
        written := !(splitFrom (carry.getD []) w).dropLast.isEmpty,
        output_file :=
          if (splitFrom (carry.getD []) w).dropLast.isEmpty then
            resizeFile (old.getD []) (w.length + (carry.getD []).length)
          else terminated (stdSort (splitFrom (carry.getD []) w).dropLast),
        partial_line := carryOf ((splitFrom (carry.getD []) w).getLastD []),
        lines := stdSort (splitFrom (carry.getD []) w).dropLast } := by
  have hpos : 0 < w.length := List.length_pos.mpr hw
  have hm1 : mapped page_size pre.length w.length = true := mapped_of_pos hp hpos _
  have hm2 : mapped page_size 0 (w.length + (carry.getD []).length) = true :=
    mapped_of_pos hp (by omega) _
  have hscan := scanLoop_spec ((pre ++ w ++ post).drop pre.length) post w.length w
    { it := 0, partial_line_processed := false, partial_line := carry, lines := [] } hw
    (by simp) (le_refl _) (by simp)
  simp only [Nat.zero_add, List.nil_append] at hscan
  obtain ⟨hlines, hpartial⟩ := hscan
  have hlen : (terminated (stdSort (splitFrom (carry.getD []) w).dropLast)).length ≤
      (resizeFile (old.getD []) (w.length + (carry.getD []).length)).length := by
    rw [length_resizeFile, length_terminated_perm (stdSort_perm _)]
    exact length_terminated_dropLast_le _ _
  have hwrite := writeLines_spec _ _ hlen
  simp only [sortRegion, hm1, hm2, Bool.not_true, Bool.false_eq_true, if_false, hlines, hpartial,
    hwrite, stdSort_isEmpty]
  by_cases he : (splitFrom (carry.getD []) w).dropLast.isEmpty = true
  · simp only [he, if_true, Bool.not_true]
    have : (splitFrom (carry.getD []) w).dropLast = [] := List.isEmpty_iff.mp he
    simp [this, stdSort, terminated]
  · simp only [he, if_false, Bool.not_false, Bool.false_eq_true]
    have e : w.length + (carry.getD []).length - (w.length + (carry.getD []).length -
        (terminated (stdSort (splitFrom (carry.getD []) w).dropLast)).length) =
        (terminated (stdSort (splitFrom (carry.getD []) w).dropLast)).length := by
      rw [length_resizeFile] at hlen
      omega
    rw [e, resizeFile_append_left]

/-! mergeRegions: writing through the sliding window -/

theorem take_store (file data : List Byte) (k : Nat) (h : k + data.length ≤ file.length) :
    (file.take k ++ data ++ file.drop (k + data.length)).take (k + data.length) =
      file.take k ++ data := by
  apply List.take_left'
  simp only [List.length_append, List.length_take]
  omega

theorem length_store (file data : List Byte) (k : Nat) (h : k + data.length ≤ file.length) :
    (file.take k ++ data ++ file.drop (k + data.length)).length = file.length := by
  simp only [List.length_append, List.length_take, List.length_drop]
  omega

theorem OutInv.store {size rs : Nat} {o : Output} {bytes : List Byte} (h : OutInv size rs o bytes)
    (data : List Byte) (hw : o.output_pos + data.length ≤ o.window) :
    (o.store data).status = .ok ∧ (o.store data).file.length = size ∧
      (o.store data).file.take (bytes.length + data.length) = bytes ++ data ∧
      (o.store data).output_file_offset = o.output_file_offset ∧
      (o.store data).window = o.window ∧ (o.store data).output_pos = o.output_pos := by
  have hwin := h.window_eq
  have hoff := h.offset_le
  have hlen := h.file_len
  have hwr := h.written
  by_cases hd : data.length = 0
  · have : data = [] := List.length_eq_zero.mp hd
    subst this
    have e : o.store [] = o := by simp [Output.store]
    rw [e]
    exact ⟨h.status_ok, h.file_len, by simpa using h.file_start, rfl, rfl, rfl⟩
  · have h1 : ¬ (o.window < o.output_pos + data.length) := by omega
    have h2 : ¬ (o.file.length < o.output_file_offset + o.output_pos + data.length) := by omega
    have e : o.store data =
        { o with file := o.file.take (o.output_file_offset + o.output_pos) ++ data ++
            o.file.drop (o.output_file_offset + o.output_pos + data.length) } := by
      simp only [Output.store, hd, h1, h2, if_false]
    have hk : o.output_file_offset + o.output_pos + data.length ≤ o.file.length := by omega
    rw [e]
    refine ⟨h.status_ok, ?_, ?_, rfl, rfl, rfl⟩
    · show (_ ++ data ++ _).length = size
      rw [length_store _ _ _ hk, hlen]
    · show (_ ++ data ++ _).take _ = _
      rw [← hwr, take_store _ _ _ hk, hwr, h.file_start]

theorem mapOutput_inv {page_size rs size : Nat} (hp : 0 < page_size) (hrs : 0 < rs)
    (file bytes : List Byte) (hlen : file.length = size) (hb : bytes.length < size)
    (hpre : file.take bytes.length = bytes) :
    OutInv size rs (mapOutput page_size rs size file bytes.length) bytes ∧
      0 < (mapOutput page_size rs size file bytes.length).window := by
  have hsub : subSizeT size bytes.length = size - bytes.length := by
    simp [subSizeT, Nat.le_of_lt hb]
  have hwpos : 0 < min (size - bytes.length) rs := by
    simp only [lt_min_iff]; omega
  have hm := mapped_of_pos hp hwpos bytes.length
  refine ⟨⟨?_, hlen, ?_, hpre, ?_, ?_, ?_⟩, ?_⟩
  · simp [mapOutput, hsub, hm]
  · simp [mapOutput]
  · simp only [mapOutput]; omega
  · simp [mapOutput, hsub]
  · simp [mapOutput]
  · simpa [mapOutput, hsub] using hwpos

theorem copyLoop_spec {page_size rs size : Nat} (hp : 0 < page_size) (hrs : 0 < rs)
    (line : List Byte) :
    ∀ (fuel : Nat) (o : Output) (bytes : List Byte) (lp : Nat), OutInv size rs o bytes →
      lp ≤ line.length → bytes.length + (line.length - lp) + 1 ≤ size →
      2 * (line.length - lp) + (if o.output_pos = o.window then 1 else 0) < fuel →
      OutInv size rs
          (copyLoop page_size rs size line fuel o lp
            (min (line.length - lp) (o.window - o.output_pos)))
          (bytes ++ line.drop lp) ∧
        (copyLoop page_size rs size line fuel o lp
            (min (line.length - lp) (o.window - o.output_pos))).output_pos <
          (copyLoop page_size rs size line fuel o lp
            (min (line.length - lp) (o.window - o.output_pos))).window := by
  intro fuel
  induction fuel with
  | zero => intro o bytes lp _ _ _ hf; omega
  | succ f ih =>
    intro o bytes lp hinv hlp hroom hfuel
    have hwin := hinv.window_eq
    have hoff := hinv.offset_le
    have hwr := hinv.written
    have hpl := hinv.pos_le
    by_cases hcond : 0 < min (line.length - lp) (o.window - o.output_pos) ∨
        o.output_pos = o.window
    · -- the body runs
      simp only [copyLoop, hcond, if_true]
      set b := min (line.length - lp) (o.window - o.output_pos) with hb
      have hb1 : b ≤ line.length - lp := Nat.min_le_left _ _
      have hb2 : b ≤ o.window - o.output_pos := Nat.min_le_right _ _
      have hdata : ((line.drop lp).take b).length = b := by
        simp only [List.length_take, List.length_drop]; omega
      obtain ⟨hs1, hs2, hs3, hs4, hs5, hs6⟩ :=
        hinv.store ((line.drop lp).take b) (by rw [hdata]; omega)
      rw [hdata] at hs3
      have hdrop : (line.drop lp).take b ++ line.drop (lp + b) = line.drop lp := by
        rw [← List.drop_drop]; exact List.take_append_drop _ _
      by_cases hroll : o.output_pos + b = o.window
      · -- the window is full: rollover
        have hfull : o.window = rs := by
          rw [hwin]; apply Nat.min_eq_right; omega
        have hnew : o.output_file_offset + rs = (bytes ++ (line.drop lp).take b).length := by
          simp only [List.length_append, hdata]; omega
        have hbody : copyBody page_size rs size line o lp b =
            mapOutput page_size rs size (o.store ((line.drop lp).take b)).file
              (bytes ++ (line.drop lp).take b).length := by
          simp only [copyBody, hs1, hs4, hs5, hs6, hroll, ne_eq, not_true_eq_false, if_false,
            if_true, hnew]
        obtain ⟨hinv1, hwpos⟩ := mapOutput_inv hp hrs (o.store ((line.drop lp).take b)).file
          (bytes ++ (line.drop lp).take b) hs2
          (by simp only [List.length_append, hdata]; omega)
          (by simpa only [List.length_append, hdata] using hs3)
        rw [hbody]
        simp only [hinv1.status_ok, ne_eq, not_true_eq_false, if_false]
        have hpos0 : (mapOutput page_size rs size (o.store ((line.drop lp).take b)).file
            (bytes ++ (line.drop lp).take b).length).output_pos = 0 := rfl
        have := ih _ (bytes ++ (line.drop lp).take b) (lp + b) hinv1 (by omega)
          (by simp only [List.length_append, hdata]; omega)
          (by
            rw [hpos0, if_neg (by omega)]
            by_cases hb0 : b = 0
            · have : o.output_pos = o.window := by omega
              rw [if_pos this] at hfuel
              omega
            · omega)
        rw [List.append_assoc, hdrop, hpos0, Nat.sub_zero] at this
        exact this
      · -- the window has room left
        have hbpos : 0 < b := by
          rcases hcond with h | h
          · exact h
          · exact absurd (by omega : o.output_pos + b = o.window) hroll
        have hbody : copyBody page_size rs size line o lp b =
            (o.store ((line.drop lp).take b)).advance b := by
          simp only [copyBody, hs1, hs5, hs6, hroll, ne_eq, not_true_eq_false, if_false]
        have hinv1 : OutInv size rs ((o.store ((line.drop lp).take b)).advance b)
            (bytes ++ (line.drop lp).take b) := by
          refine ⟨hs1, hs2, ?_, ?_, ?_, ?_, ?_⟩
          · simp only [Output.advance, hs4, hs6, List.length_append, hdata]; omega
          · simpa only [List.length_append, hdata] using hs3
          · simpa only [Output.advance, hs4] using hoff
          · simpa only [Output.advance, hs4, hs5] using hwin
          · simp only [Output.advance, hs5, hs6]; omega
        rw [hbody]
        have hst : ((o.store ((line.drop lp).take b)).advance b).status = .ok := hs1
        simp only [hst, ne_eq, not_true_eq_false, if_false]
        have := ih _ (bytes ++ (line.drop lp).take b) (lp + b) hinv1 (by omega)
          (by simp only [List.length_append, hdata]; omega)
          (by
            have : ¬ (((o.store ((line.drop lp).take b)).advance b).output_pos =
                ((o.store ((line.drop lp).take b)).advance b).window) := by
              simp only [Output.advance, hs5, hs6]; exact hroll
            simp only [this, if_false]
            omega)
        rw [List.append_assoc, hdrop] at this
        exact this
    · -- the loop is left
      have hc1 : ¬ (0 < min (line.length - lp) (o.window - o.output_pos)) :=
        fun h => hcond (Or.inl h)
      have hc2 : ¬ (o.output_pos = o.window) := fun h => hcond (Or.inr h)
      have hlt : o.output_pos < o.window := by omega
      have hrem : line.length - lp = 0 := by
        rcases Nat.eq_zero_or_pos (line.length - lp) with h | h
        · exact h
        · exact absurd (lt_min h (by omega)) hc1
      have hnil : line.drop lp = [] := List.drop_eq_nil_iff.mpr (by omega)
      simp only [copyLoop, hcond, if_false, hnil, List.append_nil]
      exact ⟨hinv, hlt⟩

theorem emitLine_spec {page_size rs size : Nat} (hp : 0 < page_size) (hrs : 0 < rs)
    (line : List Byte) (o : Output) (bytes : List Byte) (hinv : OutInv size rs o bytes)
    (hroom : bytes.length + line.length + 1 ≤ size) :
    OutInv size rs (emitLine page_size rs size line o) (bytes ++ line ++ [NL]) := by
  have hc := copyLoop_spec hp hrs line (2 * line.length + 3) o bytes 0 hinv (Nat.zero_le _)
    (by simpa using hroom) (by split <;> omega)
  simp only [Nat.sub_zero, List.drop_zero] at hc
  rw [Nat.min_comm] at hc
  obtain ⟨hinv1, hlt⟩ := hc
  obtain ⟨hs1, hs2, hs3, hs4, hs5, hs6⟩ := hinv1.store [NL] (by simpa using hlt)
  simp only [emitLine, hinv1.status_ok, hs1, ne_eq, not_true_eq_false, if_false]
  refine ⟨hs1, hs2, ?_, ?_, ?_, ?_, ?_⟩
  · have := hinv1.written
    simp only [Output.advance, hs4, hs6, List.length_append, List.length_singleton] at this ⊢
    omega
  · simpa using hs3
  · simpa only [Output.advance, hs4] using hinv1.offset_le
  · simpa only [Output.advance, hs4, hs5] using hinv1.window_eq
  · simp only [Output.advance, hs5, hs6]; omega


/-! mergeRegions: the heap -/

theorem completeLines_terminated {ls : List (List Byte)} (h : ∀ l ∈ ls, NL ∉ l) :
    completeLines (terminated ls) = ls := by
  simp [completeLines, splitFrom_terminated h]

theorem lastSegment_terminated {ls : List (List Byte)} (h : ∀ l ∈ ls, NL ∉ l) :
    lastSegment (terminated ls) = [] := by
  simp [lastSegment, splitFrom_terminated h]

theorem length_le_length_terminated (ls : List (List Byte)) :
    ls.length ≤ (terminated ls).length := by
  induction ls with
  | nil => simp
  | cons l ls ih => simp only [terminated_cons, List.length_cons, List.length_append]; omega

theorem stdSort_cons_min {a : List Byte} {xs : List (List Byte)} (h : ∀ x ∈ xs, LineLe a x) :
    stdSort (a :: xs) = a :: stdSort xs :=
  List.insertionSort_cons LineLe h

theorem pending_of_entryOK {e : RegionLine} {rest : List (List Byte)} (h : EntryOK e rest) :
    pending e = e.line :: rest := by
  obtain ⟨_, _, hrest, hdrop, _⟩ := h
  simp only [pending, (drop_eq_cons hdrop).2, completeLines_terminated hrest]

theorem heapPush_perm (x : RegionLine) (heap : List RegionLine) :
    (heapPush x heap).Perm (x :: heap) :=
  List.perm_orderedInsert _ _ _

theorem heapPush_ok {x : RegionLine} {heap : List RegionLine} {rest : List (List Byte)}
    (hx : EntryOK x rest) (h : HeapOK heap) : HeapOK (heapPush x heap) := by
  refine ⟨List.Sorted.orderedInsert _ _ h.1, ?_⟩
  intro e he
  rcases List.mem_cons.mp ((heapPush_perm x heap).subset he) with h1 | h1
  · exact ⟨rest, h1 ▸ hx⟩
  · exact h.2 e h1

theorem advanceRun_last {top : RegionLine} (h : EntryOK top []) (heap : List RegionLine) :
    advanceRun top heap = heap := by
  obtain ⟨hend, _, _, hdrop, _⟩ := h
  have := congrArg List.length hdrop
  simp only [List.length_drop, terminated_nil, List.length_singleton] at this
  have : ¬ (top.region_pos + 1 < top.region_end) := by omega
  simp [advanceRun, this]

theorem advanceRun_next {top : RegionLine} {l : List Byte} {rest : List (List Byte)}
    (h : EntryOK top (l :: rest)) (heap : List RegionLine) :
    advanceRun top heap =
        heapPush { top with region_pos := top.region_pos + 1 + l.length, line := l } heap ∧
      EntryOK { top with region_pos := top.region_pos + 1 + l.length, line := l } rest := by
  obtain ⟨hend, _, hrest, hdrop, hsorted⟩ := h
  have hl : NL ∉ l := hrest l (by simp)
  have hd1 : top.mem.drop (top.region_pos + 1) = l ++ NL :: terminated rest := by
    rw [(drop_eq_cons hdrop).2, terminated_cons]
  have hlen := congrArg List.length hd1
  simp only [List.length_drop, List.length_append, List.length_cons] at hlen
  have hlt : top.region_pos + 1 < top.region_end := by omega
  have hn := nextLine_newline hl top.mem (terminated rest) (top.region_pos + 1) top.region_end
    hd1 (by omega)
  constructor
  · simp only [advanceRun, hlt, if_true, hn]
  · refine ⟨hend, hl, fun x hx => hrest x (by simp [hx]), ?_, hsorted.of_cons⟩
    show top.mem.drop (top.region_pos + 1 + l.length) = _
    rw [← List.drop_drop, hd1]
    simp

theorem mergeLoop_spec {page_size rs size : Nat} (hp : 0 < page_size) (hrs : 0 < rs) :
    ∀ (fuel : Nat) (heap : List RegionLine) (o : Output) (bytes : List Byte),
      HeapOK heap → OutInv size rs o bytes →
      bytes.length + (terminated (heap.flatMap pending)).length = size →
      (heap.flatMap pending).length ≤ fuel →
      OutInv size rs (mergeLoop page_size rs size fuel heap o)
        (bytes ++ terminated (stdSort (heap.flatMap pending))) := by
  intro fuel
  induction fuel with
  | zero =>
    intro heap o bytes _ hinv _ hfuel
    cases heap with
    | nil => simpa [mergeLoop, stdSort, terminated] using hinv
    | cons top h => simp [pending] at hfuel
  | succ f ih =>
    intro heap o bytes hheap hinv hsize hfuel
    cases heap with
    | nil => simpa [mergeLoop, stdSort, terminated] using hinv
    | cons top h =>
      obtain ⟨rest, htop⟩ := hheap.2 top (by simp)
      have hh : HeapOK h := ⟨hheap.1.of_cons, fun e he => hheap.2 e (by simp [he])⟩
      have hpend : (top :: h).flatMap pending = top.line :: (rest ++ h.flatMap pending) := by
        simp [List.flatMap_cons, pending_of_entryOK htop]
      rw [hpend] at hsize hfuel ⊢
      simp only [terminated_cons, List.length_append, List.length_cons] at hsize hfuel
      -- the line on top is a least one
      have hmin : ∀ x ∈ rest ++ h.flatMap pending, LineLe top.line x := by
        intro x hx
        rcases List.mem_append.mp hx with h1 | h1
        · exact List.rel_of_sorted_cons htop.2.2.2.2 x h1
        · obtain ⟨e, he, hxe⟩ := List.mem_flatMap.mp h1
          obtain ⟨reste, hE⟩ := hh.2 e he
          have h2 : LineLe top.line e.line := List.rel_of_sorted_cons hheap.1 e he
          rw [pending_of_entryOK hE] at hxe
          rcases List.mem_cons.mp hxe with h3 | h3
          · rw [h3]; exact h2
          · exact lineLe_trans h2 (List.rel_of_sorted_cons hE.2.2.2.2 x h3)
      rw [stdSort_cons_min hmin]
      -- the line is written
      have hinv1 := emitLine_spec hp hrs top.line o bytes hinv (by omega)
      simp only [mergeLoop, hinv1.status_ok, ne_eq, not_true_eq_false, if_false]
      -- the heap afterwards
      have hnext : HeapOK (advanceRun top h) ∧
          ((advanceRun top h).flatMap pending).Perm (rest ++ h.flatMap pending) := by
        cases rest with
        | nil =>
          rw [advanceRun_last htop]
          exact ⟨hh, by simp⟩
        | cons l rest' =>
          obtain ⟨e1, e2⟩ := advanceRun_next htop h
          rw [e1]
          refine ⟨heapPush_ok e2 hh, ?_⟩
          refine ((heapPush_perm _ h).flatMap_right pending).trans ?_
          simp [List.flatMap_cons, pending_of_entryOK e2]
      have hlen := length_terminated_perm hnext.2
      have := ih (advanceRun top h) _ (bytes ++ top.line ++ [NL]) hnext.1 hinv1
        (by simp only [List.length_append, List.length_singleton]; omega)
        (by rw [hnext.2.length_eq, List.length_append]; omega)
      rw [stdSort_eq_of_perm hnext.2] at this
      simpa [terminated_cons] using this


/-! mergeRegions -/

theorem mem_completeLines_not_mem (s : List Byte) : ∀ l ∈ completeLines s, NL ∉ l := by
  intro l hl
  exact not_mem_of_mem_splitFrom (by simp) s l (List.mem_of_mem_dropLast hl)

theorem not_mem_lastSegment (s : List Byte) : NL ∉ lastSegment s := by
  unfold lastSegment
  obtain ⟨x, xs, hx⟩ := List.exists_cons_of_ne_nil (splitFrom_ne_nil [] s)
  have := @not_mem_of_mem_splitFrom [] (by simp) s
  rw [hx] at this ⊢
  rw [List.getLastD_cons]
  rcases List.eq_nil_or_concat xs with h | ⟨ys, y, h⟩
  · subst h; exact this x (by simp)
  · subst h
    simp only [List.concat_eq_append, List.getLastD_concat]
    exact this y (by simp)

theorem terminated_completeLines (s : List Byte) :
    terminated (completeLines s) ++ lastSegment s = s := by
  simpa [completeLines, lastSegment] using splitFrom_rebuild [] s

theorem WellFormedRun.eq_terminated {run : List Byte} (h : WellFormedRun run) :
    run = terminated (completeLines run) := by
  have := terminated_completeLines run
  rw [h.2.1, List.append_nil] at this
  exact this.symm

theorem WellFormedRun.lines_ne_nil {run : List Byte} (h : WellFormedRun run) :
    completeLines run ≠ [] := by
  intro hc
  have := h.eq_terminated
  rw [hc] at this
  exact h.1 this

theorem wellFormedRun_terminated {ls : List (List Byte)} (hne : ls ≠ [])
    (hnl : ∀ l ∈ ls, NL ∉ l) (hs : ls.Sorted LineLe) : WellFormedRun (terminated ls) := by
  refine ⟨?_, lastSegment_terminated hnl, by rw [completeLines_terminated hnl]; exact hs⟩
  obtain ⟨x, xs, rfl⟩ := List.exists_cons_of_ne_nil hne
  simp [terminated_cons]

theorem seedEntry_ok {run : List Byte} (h : WellFormedRun run) :
    ∃ l rest, completeLines run = l :: rest ∧
      nextLine run 0 run.length = (l, l.length) ∧
      EntryOK { mem := run, region_pos := l.length, region_end := run.length, line := l }
        rest := by
  obtain ⟨l, rest, hls⟩ := List.exists_cons_of_ne_nil h.lines_ne_nil
  have hnl := mem_completeLines_not_mem run
  rw [hls] at hnl
  have hrun : run = l ++ NL :: terminated rest := by
    rw [← terminated_cons, ← hls]; exact h.eq_terminated
  have hl : NL ∉ l := hnl l (by simp)
  have hn := nextLine_newline hl run (terminated rest) 0 run.length (by simpa using hrun)
    (by rw [hrun]; simp)
  simp only [Nat.zero_add] at hn
  refine ⟨l, rest, hls, hn, rfl, hl, fun x hx => hnl x (by simp [hx]), ?_, ?_⟩
  · show run.drop l.length = _
    rw [hrun]; simp
  · have := h.2.2
    rwa [hls] at this

theorem seedHeap_spec : ∀ (runs : List (List Byte)) (heap : List RegionLine),
    (∀ r ∈ runs, WellFormedRun r) → HeapOK heap →
    HeapOK (seedHeap runs heap) ∧
      ((seedHeap runs heap).flatMap pending).Perm
        (heap.flatMap pending ++ runs.flatMap completeLines) := by
  intro runs
  induction runs with
  | nil => intro heap _ h; exact ⟨h, by simp [seedHeap]⟩
  | cons run runs ih =>
    intro heap hruns hheap
    have hrun := hruns run (by simp)
    obtain ⟨l, rest, hls, hn, hE⟩ := seedEntry_ok hrun
    have hne : 0 ≠ run.length := by
      have := hrun.1
      intro h0
      exact this (List.length_eq_zero.mp h0.symm)
    simp only [seedHeap, hne, ne_eq, not_false_eq_true, if_true, hn]
    obtain ⟨h1, h2⟩ := ih _ (fun r hr => hruns r (by simp [hr])) (heapPush_ok hE hheap)
    refine ⟨h1, h2.trans ?_⟩
    have h3 := (heapPush_perm
      { mem := run, region_pos := l.length, region_end := run.length, line := l }
      heap).flatMap_right pending
    refine (h3.append_right _).trans ?_
    simp only [List.flatMap_cons, pending_of_entryOK hE, hls]
    rw [← List.append_assoc]
    exact (List.perm_append_comm.append_right _)

theorem sum_length_runs : ∀ (runs : List (List Byte)), (∀ r ∈ runs, WellFormedRun r) →
    (runs.map List.length).sum = (terminated (runs.flatMap completeLines)).length := by
  intro runs
  induction runs with
  | nil => intro _; rfl
  | cons run runs ih =>
    intro h
    have h1 := (h run (by simp)).eq_terminated
    have h2 := ih (fun r hr => h r (by simp [hr]))
    simp only [List.map_cons, List.sum_cons, List.flatMap_cons, terminated_append,
      List.length_append, ← h1, h2]

theorem OutInv.file_eq {size rs : Nat} {o : Output} {bytes : List Byte}
    (h : OutInv size rs o bytes) (hlen : bytes.length = size) :
    o.file = bytes ∧ o.window - o.output_pos = 0 := by
  constructor
  · have := h.file_start
    rwa [hlen, ← h.file_len, List.take_length] at this
  · have h1 := h.written
    have h2 := h.window_eq
    have h3 := h.pos_le
    have h4 := h.offset_le
    have : min (size - o.output_file_offset) rs ≤ size - o.output_file_offset :=
      Nat.min_le_left _ _
    omega

/-- What `mergeRegions` does on run files that are non-empty, newline-terminated and sorted. -/
theorem mergeRegions_spec (sorter : FileSorter) (hp : 0 < sorter.page_size)
    (hrs : 0 < sorter.region_size_) (runs : List (List Byte)) (hne : runs ≠ [])
    (hruns : ∀ r ∈ runs, WellFormedRun r) (old : Option (List Byte)) :
    mergeRegions sorter runs old =
      { status := .ok,
        output_file := some (terminated (stdSort (runs.flatMap completeLines))) } := by
  have hsize := sum_length_runs runs hruns
  have hany : runs.any (fun run => !mapped sorter.page_size 0 run.length) = false := by
    rw [List.any_eq_false]
    intro r hr
    have : 0 < r.length := List.length_pos.mpr (hruns r hr).1
    simp [mapped_of_pos hp this]
  obtain ⟨hheap, hperm⟩ := seedHeap_spec runs [] hruns ⟨List.sorted_nil, by simp⟩
  simp only [List.flatMap_nil, List.nil_append] at hperm
  set size := (runs.map List.length).sum with hsz
  have hpos : 0 < size := by
    obtain ⟨r, rs, rfl⟩ := List.exists_cons_of_ne_nil hne
    have : 0 < r.length := List.length_pos.mpr (hruns r (by simp)).1
    simp only [hsz, List.map_cons, List.sum_cons]
    omega
  obtain ⟨hinv0, _⟩ := mapOutput_inv hp hrs (resizeFile (old.getD []) size) []
    (length_resizeFile _ _) hpos (by simp)
  have hlenp := length_terminated_perm hperm
  have hloop := mergeLoop_spec hp hrs size (seedHeap runs []) _ [] hheap hinv0
    (by simp only [List.length_nil, Nat.zero_add]; rw [hlenp, hsize])
    (by
      have := length_le_length_terminated ((seedHeap runs []).flatMap pending)
      rw [hlenp, ← hsize] at this
      exact this)
  rw [stdSort_eq_of_perm hperm, List.nil_append] at hloop
  have hlen : (terminated (stdSort (runs.flatMap completeLines))).length = size := by
    rw [length_terminated_perm (stdSort_perm _), hsize]
  obtain ⟨hfile, hwin⟩ := hloop.file_eq hlen
  simp only [List.length_nil] at hinv0 hloop hfile hwin
  simp only [mergeRegions, hany, Bool.false_eq_true, if_false, ← hsz, hinv0.status_ok,
    hloop.status_ok, ne_eq, not_true_eq_false, hwin, hfile]
  simp only [subSizeT, Nat.zero_le, if_true, Nat.sub_zero, resizeFile, ← hlen, List.take_length,
    Nat.sub_self, List.replicate_zero, List.append_nil]


/-! sortFile: the region pass -/

theorem getLastD_append_of_ne_nil {α : Type} (xs : List α) {ys : List α} (h : ys ≠ [])
    (d : α) :
    (xs ++ ys).getLastD d = ys.getLastD d := by
  induction xs with
  | nil => rfl
  | cons x xs ih =>
    rw [List.cons_append, getLastD_cons_of_ne_nil (by simp [h]), ih]

theorem completeLines_append (p w : List Byte) :
    completeLines (p ++ w) = completeLines p ++ (splitFrom (lastSegment p) w).dropLast := by
  simp only [completeLines, lastSegment, splitFrom_append [] p w]
  exact List.dropLast_append_of_ne_nil _ (splitFrom_ne_nil _ _)

theorem lastSegment_append (p w : List Byte) :
    lastSegment (p ++ w) = (splitFrom (lastSegment p) w).getLastD [] := by
  simp only [lastSegment, splitFrom_append [] p w]
  exact getLastD_append_of_ne_nil _ (splitFrom_ne_nil _ _) _

theorem mem_dropLast_splitFrom_not_mem (p w : List Byte) :
    ∀ l ∈ (splitFrom (lastSegment p) w).dropLast, NL ∉ l := by
  intro l hl
  exact not_mem_of_mem_splitFrom (not_mem_lastSegment p) w l (List.mem_of_mem_dropLast hl)

theorem regionStep_inv (sorter : FileSorter) (hp : 0 < sorter.page_size)
    (input consumed w post : List Byte) (hw : w ≠ []) (s : DriverState) (i : Nat)
    (hinput : input = consumed ++ w ++ post) (hoff : i * sorter.region_size_ = consumed.length)
    (hlen : min sorter.region_size_ (input.length - i * sorter.region_size_) = w.length)
    (h : PassInv consumed s) : PassInv (consumed ++ w) (regionStep sorter input s i) := by
  subst hinput
  have hspec := sortRegion_spec hp consumed w post hw
    (s.temp_dir (s.region_file.getD s.names_used)) s.last_partial_line
  rw [hoff] at hlen
  -- the path used in this pass is none of the run files
  have hfresh : s.region_file.getD s.names_used ∉ s.region_files := by
    cases hq : s.region_file with
    | none =>
      intro hmem
      exact absurd (h.files_lt _ (by simpa using hmem)) (Nat.lt_irrefl _)
    | some q => simpa using (h.file_lt q hq).2
  have hkeep : ∀ (c : List Byte), ∀ p ∈ s.region_files,
      (Function.update s.temp_dir (s.region_file.getD s.names_used) (some c) p).getD [] =
        (s.temp_dir p).getD [] := by
    intro c p hp'
    have : p ≠ s.region_file.getD s.names_used := fun e => hfresh (e ▸ hp')
    rw [Function.update_noteq this]
  have hmap : ∀ (c : List Byte),
      s.region_files.map (fun p =>
        (Function.update s.temp_dir (s.region_file.getD s.names_used) (some c) p).getD []) =
      s.region_files.map (fun p => (s.temp_dir p).getD []) := by
    intro c
    exact List.map_congr_left (hkeep c)
  have hused :
      s.names_used ≤ (if s.region_file.isNone then s.names_used + 1 else s.names_used) := by
    split <;> omega
  have hcur : s.region_file.getD s.names_used <
      (if s.region_file.isNone then s.names_used + 1 else s.names_used) := by
    cases hq : s.region_file with
    | none => simp
    | some q => simpa using (h.file_lt q hq).1
  simp only [regionStep, h.status_ok, ne_eq, not_true_eq_false, if_false, hoff, hlen]
  rw [hspec, h.carry, carryOf_getD]
  by_cases he : (splitFrom (lastSegment consumed) w).dropLast.isEmpty = true
  · -- no complete line: nothing is committed
    have hnil : (splitFrom (lastSegment consumed) w).dropLast = [] := List.isEmpty_iff.mp he
    simp only [he, Bool.not_true, Bool.false_eq_true, if_false, if_true]
    refine ⟨rfl, ?_, ?_, ?_, ?_, ?_⟩
    · show carryOf _ = _
      rw [lastSegment_append]
    · intro p hp'
      dsimp only
      rw [hkeep _ p hp']
      exact h.runs_ok p hp'
    · show ((List.map _ s.region_files).flatMap completeLines).Perm _
      rw [hmap, completeLines_append, hnil, List.append_nil]
      exact h.lines
    · intro p hp'
      exact Nat.lt_of_lt_of_le (h.files_lt p hp') hused
    · intro q hq
      simp only [Option.some.injEq] at hq
      subst hq
      exact ⟨hcur, hfresh⟩
  · -- a run file is committed
    have hne : (splitFrom (lastSegment consumed) w).dropLast ≠ [] :=
      fun hc => he (List.isEmpty_iff.mpr hc)
    have hsne : stdSort (splitFrom (lastSegment consumed) w).dropLast ≠ [] := by
      intro hc
      have := (stdSort_perm (splitFrom (lastSegment consumed) w).dropLast).length_eq
      rw [hc] at this
      exact hne (List.length_eq_zero.mp this.symm)
    have hnl : ∀ l ∈ stdSort (splitFrom (lastSegment consumed) w).dropLast, NL ∉ l :=
      fun l hl => mem_dropLast_splitFrom_not_mem consumed w l ((stdSort_perm _).subset hl)
    have hrun := wellFormedRun_terminated hsne hnl (stdSort_sorted _)
    simp only [he, Bool.not_false, Bool.false_eq_true, if_false, if_true]
    refine ⟨rfl, ?_, ?_, ?_, ?_, ?_⟩
    · show carryOf _ = _
      rw [lastSegment_append]
    · intro p hp'
      dsimp only
      rcases List.mem_append.mp hp' with h1 | h1
      · rw [hkeep _ p h1]
        exact h.runs_ok p h1
      · rw [List.mem_singleton.mp h1, Function.update_same]
        exact hrun
    · show ((List.map _ (s.region_files ++ [_])).flatMap completeLines).Perm _
      rw [List.map_append, hmap, List.flatMap_append, completeLines_append]
      refine List.Perm.append h.lines ?_
      simp only [List.map_cons, List.map_nil, Function.update_same, Option.getD_some,
        List.flatMap_cons, List.flatMap_nil, List.append_nil, completeLines_terminated hnl]
      exact stdSort_perm _
    · intro p hp'
      rcases List.mem_append.mp hp' with h1 | h1
      · exact Nat.lt_of_lt_of_le (h.files_lt p h1) hused
      · rw [List.mem_singleton.mp h1]; exact hcur
    · intro q hq
      exact absurd hq (by simp)


theorem regionPass_succ (sorter : FileSorter) (input : List Byte) (k : Nat) :
    regionPass sorter input (k + 1) = regionStep sorter input (regionPass sorter input k) k := by
  simp [regionPass, List.range_succ, List.foldl_append]

theorem lt_numRegions {rs : Nat} (hrs : 0 < rs) (size k : Nat) :
    k < (size + rs - 1) / rs ↔ k * rs < size := by
  rw [Nat.lt_iff_add_one_le, Nat.le_div_iff_mul_le hrs, Nat.succ_mul]
  omega

theorem le_numRegions_mul {rs : Nat} (hrs : 0 < rs) (size : Nat) :
    size ≤ (size + rs - 1) / rs * rs := by
  by_contra h
  have := (lt_numRegions hrs size ((size + rs - 1) / rs)).mpr (Nat.lt_of_not_le h)
  exact Nat.lt_irrefl _ this

theorem lastSegment_nil : lastSegment [] = [] := rfl

theorem completeLines_nil : completeLines [] = [] := rfl

theorem regionPass_inv (sorter : FileSorter) (hp : 0 < sorter.page_size)
    (hrs : 0 < sorter.region_size_) (input : List Byte) :
    ∀ k, k ≤ (input.length + sorter.region_size_ - 1) / sorter.region_size_ →
      PassInv (input.take (k * sorter.region_size_)) (regionPass sorter input k) := by
  intro k
  induction k with
  | zero =>
    intro _
    simp only [Nat.zero_mul, List.take_zero, regionPass, List.range_zero, List.foldl_nil]
    exact ⟨rfl, by simp [lastSegment_nil, carryOf], by simp, by simp [completeLines_nil],
      by simp, by simp⟩
  | succ k ih =>
    intro hk
    have hlt : k * sorter.region_size_ < input.length :=
      (lt_numRegions hrs _ k).mp (by omega)
    have h := ih (by omega)
    rw [regionPass_succ]
    have htake : input.take ((k + 1) * sorter.region_size_) =
        input.take (k * sorter.region_size_) ++
          (input.drop (k * sorter.region_size_)).take sorter.region_size_ := by
      rw [Nat.succ_mul, List.take_add]
    rw [htake]
    have hwlen : ((input.drop (k * sorter.region_size_)).take sorter.region_size_).length =
        min sorter.region_size_ (input.length - k * sorter.region_size_) := by
      simp [List.length_take, List.length_drop]
    refine regionStep_inv sorter hp input _ _
      (input.drop (k * sorter.region_size_ + sorter.region_size_)) ?_ _ k ?_ ?_ ?_ h
    · intro hc
      have := congrArg List.length hc
      rw [hwlen] at this
      simp only [List.length_nil] at this
      have : 0 < min sorter.region_size_ (input.length - k * sorter.region_size_) := by
        simp only [lt_min_iff]; omega
      omega
    · rw [List.append_assoc, ← List.drop_drop, List.take_append_drop, List.take_append_drop]
    · simp [List.length_take]; omega
    · exact hwlen.symm

theorem linesOf_ne_nil {s : List Byte} (h : s ≠ []) : linesOf s ≠ [] := by
  intro hc
  have hr := terminated_completeLines s
  simp only [linesOf, List.append_eq_nil] at hc
  by_cases hl : lastSegment s = []
  · rw [hc.1, hl] at hr
    exact h hr.symm
  · simp [hl] at hc

/-- What `sortFile` does on a non-empty input: it returns normally and the output file holds
the lines of the input in ascending order, each followed by a newline byte. -/
theorem sortFile_spec (sorter : FileSorter) (hp : 0 < sorter.page_size)
    (hrs : 0 < sorter.region_size_) (input : List Byte) (hne : input ≠ [])
    (old : Option (List Byte)) :
    sortFile sorter input old =
      { status := .ok, output_file := some (terminated (stdSort (linesOf input))) } := by
  have h := regionPass_inv sorter hp hrs input _ (le_refl _)
  rw [List.take_of_length_le (le_numRegions_mul hrs _)] at h
  have hrs0 : sorter.region_size_ ≠ 0 := by omega
  simp only [sortFile, hrs0, if_false, h.status_ok, ne_eq, not_true_eq_false]
  set s := regionPass sorter input
    ((input.length + sorter.region_size_ - 1) / sorter.region_size_) with hs
  -- the run files handed to the merge
  have hruns :
      (∀ r ∈ (carryRun s).region_files.map (fun p => ((carryRun s).temp_dir p).getD []),
        WellFormedRun r) ∧
      (((carryRun s).region_files.map (fun p => ((carryRun s).temp_dir p).getD [])).flatMap
        completeLines).Perm (linesOf input) := by
    by_cases hl : lastSegment input = []
    · have hc : s.last_partial_line = none := by rw [h.carry, hl]; rfl
      have : carryRun s = s := by simp [carryRun, hc]
      rw [this]
      refine ⟨?_, ?_⟩
      · intro r hr
        obtain ⟨p, hp', rfl⟩ := List.mem_map.mp hr
        exact h.runs_ok p hp'
      · simpa [linesOf, hl] using h.lines
    · have hc : s.last_partial_line = some (lastSegment input) := by
        rw [h.carry]; simp [carryOf, hl]
      have hfresh : s.names_used ∉ s.region_files :=
        fun hmem => absurd (h.files_lt _ hmem) (Nat.lt_irrefl _)
      have hmap : s.region_files.map (fun p =>
            (Function.update s.temp_dir s.names_used
              (some (lastSegment input ++ [NL])) p).getD []) =
          s.region_files.map (fun p => (s.temp_dir p).getD []) := by
        apply List.map_congr_left
        intro p hp'
        have : p ≠ s.names_used := fun e => hfresh (e ▸ hp')
        rw [Function.update_noteq this]
      have hnl : ∀ l ∈ [lastSegment input], NL ∉ l := by
        intro l hl'
        rw [List.mem_singleton.mp hl']
        exact not_mem_lastSegment input
      have hlast : lastSegment input ++ [NL] = terminated [lastSegment input] := by
        simp [terminated]
      simp only [carryRun, hc, List.map_append, hmap, List.map_cons, List.map_nil,
        Function.update_same, Option.getD_some]
      refine ⟨?_, ?_⟩
      · intro r hr
        rcases List.mem_append.mp hr with h1 | h1
        · obtain ⟨p, hp', rfl⟩ := List.mem_map.mp h1
          exact h.runs_ok p hp'
        · rw [List.mem_singleton.mp h1, hlast]
          exact wellFormedRun_terminated (by simp) hnl (List.sorted_singleton _)
      · rw [List.flatMap_append]
        simp only [linesOf, hl, if_false]
        refine List.Perm.append h.lines ?_
        simp [hlast, completeLines_terminated hnl]
  have hnonempty : (carryRun s).region_files.map (fun p => ((carryRun s).temp_dir p).getD [])
      ≠ [] := by
    intro hc
    have := hruns.2
    rw [hc] at this
    exact linesOf_ne_nil hne (List.Perm.nil_eq this).symm
  rw [mergeRegions_spec sorter hp hrs _ hnonempty hruns.1 old, stdSort_eq_of_perm hruns.2]


/-! Consequences used by the claims -/

theorem not_mem_of_mem_linesOf (s : List Byte) : ∀ l ∈ linesOf s, NL ∉ l := by
  intro l hl
  simp only [linesOf, List.mem_append] at hl
  rcases hl with h | h
  · exact mem_completeLines_not_mem s l h
  · by_cases hs : lastSegment s = []
    · simp [hs] at h
    · simp only [hs, if_false, List.mem_singleton] at h
      rw [h]; exact not_mem_lastSegment s

theorem terminated_linesOf (s : List Byte) :
    terminated (linesOf s) = if lastSegment s = [] then s else s ++ [NL] := by
  have h := terminated_completeLines s
  by_cases hs : lastSegment s = []
  · simp only [linesOf, hs, if_true, List.append_nil]
    rw [hs, List.append_nil] at h
    exact h
  · simp only [linesOf, hs, if_false, terminated_append]
    conv_rhs => rw [← h]
    simp [terminated]

theorem splitFrom_carry {c : List Byte} (hc : NL ∉ c) (w : List Byte) :
    splitFrom c w = splitFrom [] (c ++ w) := by
  rw [splitFrom_append_of_not_mem hc [] w, List.nil_append]

theorem dropLast_splitFrom_eq_nil_iff (c w : List Byte) :
    (splitFrom c w).dropLast = [] ↔ NL ∉ w := by
  constructor
  · intro h hnl
    obtain ⟨l, r, hw, hl⟩ := exists_first_newline hnl
    rw [hw, splitFrom_line hl, List.dropLast_cons_of_ne_nil (splitFrom_ne_nil [] r)] at h
    exact absurd h (by simp)
  · intro h
    rw [splitFrom_of_not_mem h]
    rfl

theorem lastSegment_append_newline (p : List Byte) : lastSegment (p ++ [NL]) = [] := by
  rw [lastSegment_append]
  simp [splitFrom]

theorem sortRegion_empty_window (page_size : Nat) (input_file : List Byte) (offset : Nat)
    (old carry : Option (List Byte)) :
    (sortRegion page_size input_file offset 0 old carry).written = false := by
  simp only [sortRegion, scanLoop, stdSort, List.insertionSort, writeLines]
  split
  · rfl
  · split
    · rfl
    · rfl

theorem sortFile_empty (sorter : FileSorter) (hrs : 0 < sorter.region_size_)
    (old : Option (List Byte)) :
    sortFile sorter [] old = { status := .systemError, output_file := some [] } := by
  have hrs0 : sorter.region_size_ ≠ 0 := by omega
  have hn : (sorter.region_size_ - 1) / sorter.region_size_ = 0 :=
    Nat.div_eq_of_lt (by omega)
  simp [sortFile, hrs0, hn, regionPass, carryRun, mergeRegions, seedHeap, mapOutput, subSizeT,
    mapped_zero, resizeFile]


theorem flatMap_linesOf_runs : ∀ (runs : List (List Byte)), (∀ r ∈ runs, WellFormedRun r) →
    runs.flatMap linesOf = runs.flatMap completeLines := by
  intro runs
  induction runs with
  | nil => intro _; rfl
  | cons r rs ih =>
    intro h
    have h1 := (h r (by simp)).2.1
    simp only [List.flatMap_cons, ih (fun x hx => h x (by simp [hx]))]
    simp [linesOf, h1]

theorem mergeRegions_nil (sorter : FileSorter) (old : Option (List Byte)) :
    mergeRegions sorter [] old = { status := .systemError, output_file := some [] } := by
  simp [mergeRegions, seedHeap, mapOutput, subSizeT, mapped_zero, resizeFile]

theorem sortRegion_written_iff {page_size : Nat} (hp : 0 < page_size) (pre w post : List Byte)
    (old carry : Option (List Byte)) :
    (sortRegion page_size (pre ++ w ++ post) pre.length w.length old carry).written = true ↔
      NL ∈ w := by
  by_cases hw : w = []
  · subst hw
    have := sortRegion_empty_window page_size (pre ++ [] ++ post) pre.length old carry
    simp only [List.length_nil]
    rw [this]
    simp
  · rw [sortRegion_spec hp pre w post hw old carry]
    simp only [Bool.not_eq_true', List.isEmpty_eq_false_iff_exists_mem]
    rw [← not_iff_not, ← dropLast_splitFrom_eq_nil_iff (carry.getD []) w]
    simp [List.eq_nil_iff_forall_not_mem]

/-! mergeRegions: the heap over runs that need not be sorted -/

theorem EntryOK.entryAt {e : RegionLine} {rest : List (List Byte)} (h : EntryOK e rest) :
    EntryAt e rest :=
  ⟨h.1, h.2.1, h.2.2.1, h.2.2.2.1⟩

theorem WellFormedRun.terminatedRun {run : List Byte} (h : WellFormedRun run) :
    TerminatedRun run :=
  ⟨h.1, h.2.1⟩

theorem pending_of_entryAt {e : RegionLine} {rest : List (List Byte)} (h : EntryAt e rest) :
    pending e = e.line :: rest := by
  obtain ⟨_, _, hrest, hdrop⟩ := h
  simp only [pending, (drop_eq_cons hdrop).2, completeLines_terminated hrest]

theorem advanceRun_last_at {top : RegionLine} (h : EntryAt top []) (heap : List RegionLine) :
    advanceRun top heap = heap := by
  obtain ⟨hend, _, _, hdrop⟩ := h
  have := congrArg List.length hdrop
  simp only [List.length_drop, terminated_nil, List.length_singleton] at this
  have : ¬ (top.region_pos + 1 < top.region_end) := by omega
  simp [advanceRun, this]

theorem advanceRun_next_at {top : RegionLine} {l : List Byte} {rest : List (List Byte)}
    (h : EntryAt top (l :: rest)) (heap : List RegionLine) :
    advanceRun top heap =
        heapPush { top with region_pos := top.region_pos + 1 + l.length, line := l } heap ∧
      EntryAt { top with region_pos := top.region_pos + 1 + l.length, line := l } rest := by
  obtain ⟨hend, _, hrest, hdrop⟩ := h
  have hl : NL ∉ l := hrest l (by simp)
  have hd1 : top.mem.drop (top.region_pos + 1) = l ++ NL :: terminated rest := by
    rw [(drop_eq_cons hdrop).2, terminated_cons]
  have hlen := congrArg List.length hd1
  simp only [List.length_drop, List.length_append, List.length_cons] at hlen
  have hlt : top.region_pos + 1 < top.region_end := by omega
  have hn := nextLine_newline hl top.mem (terminated rest) (top.region_pos + 1) top.region_end
    hd1 (by omega)
  constructor
  · simp only [advanceRun, hlt, if_true, hn]
  · refine ⟨hend, hl, fun x hx => hrest x (by simp [hx]), ?_⟩
    show top.mem.drop (top.region_pos + 1 + l.length) = _
    rw [← List.drop_drop, hd1]
    simp

theorem TerminatedRun.eq_terminated_lines {run : List Byte} (h : TerminatedRun run) :
    run = terminated (completeLines run) := by
  have := terminated_completeLines run
  rw [h.2, List.append_nil] at this
  exact this.symm

theorem seedEntry_at {run : List Byte} (h : TerminatedRun run) :
    ∃ l rest, completeLines run = l :: rest ∧
      nextLine run 0 run.length = (l, l.length) ∧
      EntryAt { mem := run, region_pos := l.length, region_end := run.length, line := l }
        rest := by
  have hne : completeLines run ≠ [] := by
    intro hc
    have := h.eq_terminated_lines
    rw [hc] at this
    exact h.1 this
  obtain ⟨l, rest, hls⟩ := List.exists_cons_of_ne_nil hne
  have hnl := mem_completeLines_not_mem run
  rw [hls] at hnl
  have hrun : run = l ++ NL :: terminated rest := by
    rw [← terminated_cons, ← hls]; exact h.eq_terminated_lines
  have hl : NL ∉ l := hnl l (by simp)
  have hn := nextLine_newline hl run (terminated rest) 0 run.length (by simpa using hrun)
    (by rw [hrun]; simp)
  simp only [Nat.zero_add] at hn
  refine ⟨l, rest, hls, hn, rfl, hl, fun x hx => hnl x (by simp [hx]), ?_⟩
  show run.drop l.length = _
  rw [hrun]; simp

theorem seedHeap_at : ∀ (runs : List (List Byte)) (heap : List RegionLine),
    (∀ r ∈ runs, TerminatedRun r) → (∀ e ∈ heap, ∃ rest, EntryAt e rest) →
    (∀ e ∈ seedHeap runs heap, ∃ rest, EntryAt e rest) ∧
      ((seedHeap runs heap).flatMap pending).Perm
        (heap.flatMap pending ++ runs.flatMap completeLines) := by
  intro runs
  induction runs with
  | nil => intro heap _ h; exact ⟨h, by simp [seedHeap]⟩
  | cons run runs ih =>
    intro heap hruns hheap
    have hrun := hruns run (by simp)
    obtain ⟨l, rest, hls, hn, hE⟩ := seedEntry_at hrun
    have hne : 0 ≠ run.length := by
      have := hrun.1
      intro h0
      exact this (List.length_eq_zero.mp h0.symm)
    simp only [seedHeap, hne, ne_eq, not_false_eq_true, if_true, hn]
    have hheap1 : ∀ e ∈ heapPush
        { mem := run, region_pos := l.length, region_end := run.length, line := l } heap,
        ∃ rest, EntryAt e rest := by
      intro e he
      rcases List.mem_cons.mp ((heapPush_perm _ heap).subset he) with h1 | h1
      · exact ⟨rest, h1 ▸ hE⟩
      · exact hheap e h1
    obtain ⟨h1, h2⟩ := ih _ (fun r hr => hruns r (by simp [hr])) hheap1
    refine ⟨h1, h2.trans ?_⟩
    have h3 := (heapPush_perm
      { mem := run, region_pos := l.length, region_end := run.length, line := l }
      heap).flatMap_right pending
    refine (h3.append_right _).trans ?_
    simp only [List.flatMap_cons, pending_of_entryAt hE, hls]
    rw [← List.append_assoc]
    exact (List.perm_append_comm.append_right _)

theorem sum_length_terminated_runs : ∀ (runs : List (List Byte)),
    (∀ r ∈ runs, TerminatedRun r) →
    (runs.map List.length).sum = (terminated (runs.flatMap completeLines)).length := by
  intro runs
  induction runs with
  | nil => intro _; rfl
  | cons run runs ih =>
    intro h
    have h1 := (h run (by simp)).eq_terminated_lines
    have h2 := ih (fun r hr => h r (by simp [hr]))
    simp only [List.map_cons, List.sum_cons, List.flatMap_cons, terminated_append,
      List.length_append, ← h1, h2]


/-! mergeRegions: the points of the merge loop -/

theorem storedAfter_nil (stored : Nat) : storedAfter stored [] = stored := rfl

theorem storedAfter_append (stored : Nat) (xs ys : List Point) :
    storedAfter stored (xs ++ ys) = storedAfter (storedAfter stored xs) ys := by
  cases ys with
  | nil => simp [storedAfter]
  | cons y ys =>
    simp only [storedAfter, List.getLast?_append_of_ne_nil xs (List.cons_ne_nil y ys)]
    rw [List.getLast?_eq_getLast _ (List.cons_ne_nil y ys)]
    simp

theorem storedAfter_concat (stored : Nat) (xs : List Point) (p : Point) :
    storedAfter stored (xs ++ [p]) = p.stored := by
  simp [storedAfter]

theorem Tracked.mono {size rs : Nat} {target target' : List Byte} {p : Point}
    (h : Tracked size rs target p) (ht : target <+: target') : Tracked size rs target' p := by
  obtain ⟨bytes, h1, h2, h3, h4, h5⟩ := h
  exact ⟨bytes, h1, h2, h3.trans ht, h4, h5⟩

theorem copyBody_pass {page_size rs size : Nat} (hp : 0 < page_size) (hrs : 0 < rs)
    (line : List Byte) (o : Output) (bytes : List Byte) (lp : Nat)
    (hinv : OutInv size rs o bytes) (hw : 0 < o.window) (hlp : lp ≤ line.length)
    (hroom : bytes.length + (line.length - lp) + 1 ≤ size)
    (hcond : 0 < min (line.length - lp) (o.window - o.output_pos) ∨
      o.output_pos = o.window) :
    ((line.drop lp).take (min (line.length - lp) (o.window - o.output_pos))).length =
        min (line.length - lp) (o.window - o.output_pos) ∧
      OutInv size rs
        (copyBody page_size rs size line o lp (min (line.length - lp) (o.window - o.output_pos)))
        (bytes ++ (line.drop lp).take (min (line.length - lp) (o.window - o.output_pos))) ∧
      0 < (copyBody page_size rs size line o lp
        (min (line.length - lp) (o.window - o.output_pos))).window ∧
      (∀ p ∈ copyBodyPoints page_size rs size line o bytes.length lp
          (min (line.length - lp) (o.window - o.output_pos)),
        Tracked size rs
          (bytes ++ (line.drop lp).take (min (line.length - lp) (o.window - o.output_pos))) p) ∧
      storedAfter bytes.length (copyBodyPoints page_size rs size line o bytes.length lp
          (min (line.length - lp) (o.window - o.output_pos))) =
        bytes.length + min (line.length - lp) (o.window - o.output_pos) ∧
      2 * (line.length - (lp + min (line.length - lp) (o.window - o.output_pos))) +
          (if (copyBody page_size rs size line o lp
              (min (line.length - lp) (o.window - o.output_pos))).output_pos =
            (copyBody page_size rs size line o lp
              (min (line.length - lp) (o.window - o.output_pos))).window then 1 else 0) <
        2 * (line.length - lp) + (if o.output_pos = o.window then 1 else 0) := by
  have hwin := hinv.window_eq
  have hoff := hinv.offset_le
  have hwr := hinv.written
  have hpl := hinv.pos_le
  set b := min (line.length - lp) (o.window - o.output_pos) with hb
  have hb1 : b ≤ line.length - lp := Nat.min_le_left _ _
  have hb2 : b ≤ o.window - o.output_pos := Nat.min_le_right _ _
  have hdata : ((line.drop lp).take b).length = b := by
    simp only [List.length_take, List.length_drop]; omega
  obtain ⟨hs1, hs2, hs3, hs4, hs5, hs6⟩ :=
    hinv.store ((line.drop lp).take b) (by rw [hdata]; omega)
  rw [hdata] at hs3
  have hmid : OutInv size rs ((o.store ((line.drop lp).take b)).advance b)
      (bytes ++ (line.drop lp).take b) := by
    refine ⟨hs1, hs2, ?_, ?_, ?_, ?_, ?_⟩
    · simp only [Output.advance, hs4, hs6, List.length_append, hdata]; omega
    · simpa only [List.length_append, hdata] using hs3
    · simpa only [Output.advance, hs4] using hoff
    · simpa only [Output.advance, hs4, hs5] using hwin
    · simp only [Output.advance, hs5, hs6]; omega
  have hmidw : ((o.store ((line.drop lp).take b)).advance b).window = o.window := hs5
  have hmidp : ((o.store ((line.drop lp).take b)).advance b).output_pos = o.output_pos + b := by
    simp only [Output.advance, hs6]
  have hlen1 : (bytes ++ (line.drop lp).take b).length = bytes.length + b := by
    simp only [List.length_append, hdata]
  by_cases hroll : o.output_pos + b = o.window
  · -- the window is full: rollover
    have hfull : o.window = rs := by
      rw [hwin]; apply Nat.min_eq_right; omega
    have hnew : o.output_file_offset + rs = (bytes ++ (line.drop lp).take b).length := by
      simp only [List.length_append, hdata]; omega
    have hbody : copyBody page_size rs size line o lp b =
        mapOutput page_size rs size (o.store ((line.drop lp).take b)).file
          (bytes ++ (line.drop lp).take b).length := by
      simp only [copyBody, hs1, hs4, hs5, hs6, hroll, ne_eq, not_true_eq_false, if_false,
        if_true, hnew]
    obtain ⟨hinv1, hwpos⟩ := mapOutput_inv hp hrs (o.store ((line.drop lp).take b)).file
      (bytes ++ (line.drop lp).take b) hs2
      (by simp only [List.length_append, hdata]; omega)
      (by simpa only [List.length_append, hdata] using hs3)
    have hpos0 : (mapOutput page_size rs size (o.store ((line.drop lp).take b)).file
        (bytes ++ (line.drop lp).take b).length).output_pos = 0 := rfl
    have hpts : copyBodyPoints page_size rs size line o bytes.length lp b =
        [{ out := (o.store ((line.drop lp).take b)).advance b, stored := bytes.length + b,
           rollover := true },
         { out := copyBody page_size rs size line o lp b, stored := bytes.length + b,
           rollover := false }] := by
      simp only [copyBodyPoints, hs1, hs5, hs6, hroll, ne_eq, not_true_eq_false, if_false,
        if_true]
    rw [hpts, hbody]
    refine ⟨hdata, hinv1, hwpos, ?_, ?_, ?_⟩
    · intro p hp'
      simp only [List.mem_cons, List.mem_singleton, List.not_mem_nil, or_false] at hp'
      rcases hp' with h | h
      · subst h
        exact ⟨_, hmid, hlen1.symm, List.prefix_refl _, by rw [hmidw]; exact hw,
          fun _ => ⟨by rw [hmidw]; exact hfull, by rw [hmidw, hmidp]; exact hroll⟩⟩
      · subst h
        exact ⟨_, hinv1, hlen1.symm, List.prefix_refl _, hwpos, fun h => absurd h (by simp)⟩
    · rfl
    · rw [hpos0, if_neg (by omega)]
      by_cases hb0 : b = 0
      · have : o.output_pos = o.window := by omega
        rw [if_pos this]
        omega
      · split <;> omega
  · -- the window has room left
    have hbpos : 0 < b := by
      rcases hcond with h | h
      · exact h
      · exact absurd (by omega : o.output_pos + b = o.window) hroll
    have hbody : copyBody page_size rs size line o lp b =
        (o.store ((line.drop lp).take b)).advance b := by
      simp only [copyBody, hs1, hs5, hs6, hroll, ne_eq, not_true_eq_false, if_false]
    have hpts : copyBodyPoints page_size rs size line o bytes.length lp b =
        [{ out := copyBody page_size rs size line o lp b, stored := bytes.length + b,
           rollover := false }] := by
      simp only [copyBodyPoints, hs1, hs5, hs6, hroll, ne_eq, not_true_eq_false, if_false]
    rw [hpts, hbody]
    refine ⟨hdata, hmid, by rw [hmidw]; exact hw, ?_, rfl, ?_⟩
    · intro p hp'
      simp only [List.mem_singleton] at hp'
      subst hp'
      exact ⟨_, hmid, hlen1.symm, List.prefix_refl _, by rw [hmidw]; exact hw,
        fun h => absurd h (by simp)⟩
    · rw [hmidw, hmidp, if_neg hroll]
      split <;> omega


/-! mergeRegions: the invariant of the points -/

theorem copyPoints_inv {page_size rs size : Nat} (hp : 0 < page_size) (hrs : 0 < rs)
    (line : List Byte) :
    ∀ (fuel : Nat) (o : Output) (bytes : List Byte) (lp : Nat), OutInv size rs o bytes →
      0 < o.window → lp ≤ line.length → bytes.length + (line.length - lp) + 1 ≤ size →
      2 * (line.length - lp) + (if o.output_pos = o.window then 1 else 0) < fuel →
      (∀ p ∈ copyPoints page_size rs size line fuel o bytes.length lp
          (min (line.length - lp) (o.window - o.output_pos)),
        Tracked size rs (bytes ++ line.drop lp) p) ∧
      storedAfter bytes.length (copyPoints page_size rs size line fuel o bytes.length lp
          (min (line.length - lp) (o.window - o.output_pos))) =
        bytes.length + (line.length - lp) := by
  intro fuel
  induction fuel with
  | zero => intro o bytes lp _ _ _ _ hf; omega
  | succ f ih =>
    intro o bytes lp hinv hw hlp hroom hfuel
    by_cases hcond : 0 < min (line.length - lp) (o.window - o.output_pos) ∨
        o.output_pos = o.window
    · obtain ⟨hdata, hinv1, hw1, hpts, hst, hmeas⟩ :=
        copyBody_pass hp hrs line o bytes lp hinv hw hlp hroom hcond
      have hb1 : min (line.length - lp) (o.window - o.output_pos) ≤ line.length - lp :=
        Nat.min_le_left _ _
      have hlen1 : (bytes ++ (line.drop lp).take
          (min (line.length - lp) (o.window - o.output_pos))).length =
          bytes.length + min (line.length - lp) (o.window - o.output_pos) := by
        rw [List.length_append, hdata]
      have hdrop : (line.drop lp).take (min (line.length - lp) (o.window - o.output_pos)) ++
          line.drop (lp + min (line.length - lp) (o.window - o.output_pos)) = line.drop lp := by
        rw [← List.drop_drop]; exact List.take_append_drop _ _
      have hih := ih _ _ (lp + min (line.length - lp) (o.window - o.output_pos)) hinv1 hw1
        (by omega) (by rw [hlen1]; omega) (by omega)
      rw [hlen1, List.append_assoc, hdrop] at hih
      simp only [copyPoints, hcond, if_true, hinv1.status_ok, ne_eq, not_true_eq_false,
        if_false]
      constructor
      · intro p hp'
        rcases List.mem_append.mp hp' with h | h
        · exact (hpts p h).mono
            ⟨line.drop (lp + min (line.length - lp) (o.window - o.output_pos)), by
              rw [List.append_assoc, hdrop]⟩
        · exact hih.1 p h
      · rw [storedAfter_append, hst, hih.2]
        omega
    · have hc1 : ¬ (0 < min (line.length - lp) (o.window - o.output_pos)) :=
        fun h => hcond (Or.inl h)
      have hc2 : ¬ (o.output_pos = o.window) := fun h => hcond (Or.inr h)
      have hpl := hinv.pos_le
      have hrem : line.length - lp = 0 := by
        rcases Nat.eq_zero_or_pos (line.length - lp) with h | h
        · exact h
        · exact absurd (lt_min h (by omega)) hc1
      have e : copyPoints page_size rs size line (f + 1) o bytes.length lp
          (min (line.length - lp) (o.window - o.output_pos)) = [] := by
        simp only [copyPoints, hcond, if_false]
      rw [e, storedAfter_nil, hrem]
      exact ⟨fun p hp' => absurd hp' (List.not_mem_nil _), rfl⟩

theorem emitPoints_inv {page_size rs size : Nat} (hp : 0 < page_size) (hrs : 0 < rs)
    (line : List Byte) (o : Output) (bytes : List Byte) (hinv : OutInv size rs o bytes)
    (hw : 0 < o.window) (hroom : bytes.length + line.length + 1 ≤ size) :
    (∀ p ∈ emitPoints page_size rs size line o bytes.length,
        Tracked size rs (bytes ++ line ++ [NL]) p) ∧
      storedAfter bytes.length (emitPoints page_size rs size line o bytes.length) =
        bytes.length + line.length + 1 ∧
      0 < (emitLine page_size rs size line o).window := by
  have hc := copyLoop_spec hp hrs line (2 * line.length + 3) o bytes 0 hinv (Nat.zero_le _)
    (by simpa using hroom) (by split <;> omega)
  have hpts := copyPoints_inv hp hrs line (2 * line.length + 3) o bytes 0 hinv hw
    (Nat.zero_le _) (by simpa using hroom) (by split <;> omega)
  simp only [Nat.sub_zero, List.drop_zero] at hc hpts
  rw [Nat.min_comm] at hc hpts
  obtain ⟨hinv1, hlt⟩ := hc
  obtain ⟨hs1, hs2, hs3, hs4, hs5, hs6⟩ := hinv1.store [NL] (by simpa using hlt)
  have hemit := emitLine_spec hp hrs line o bytes hinv hroom
  have hout : emitLine page_size rs size line o =
      ((copyLoop page_size rs size line (2 * line.length + 3) o 0
        (min (o.window - o.output_pos) line.length)).store [NL]).advance 1 := by
    simp only [emitLine, hinv1.status_ok, hs1, ne_eq, not_true_eq_false, if_false]
  have hwin : (emitLine page_size rs size line o).window =
      (copyLoop page_size rs size line (2 * line.length + 3) o 0
        (min (o.window - o.output_pos) line.length)).window := by
    rw [hout]; exact hs5
  simp only [emitPoints, hinv1.status_ok, hs1, ne_eq, not_true_eq_false, if_false]
  rw [← hout]
  refine ⟨?_, ?_, by rw [hwin]; omega⟩
  · intro p hp'
    rcases List.mem_append.mp hp' with h | h
    · exact (hpts.1 p h).mono (List.prefix_append _ _)
    · simp only [List.mem_singleton] at h
      subst h
      refine ⟨_, hemit, ?_, List.prefix_refl _, by rw [hwin]; omega, fun h => absurd h (by simp)⟩
      simp only [hpts.2, List.length_append, List.length_singleton]
  · rw [storedAfter_concat, hpts.2]

theorem mergePoints_inv {page_size rs size : Nat} (hp : 0 < page_size) (hrs : 0 < rs) :
    ∀ (fuel : Nat) (heap : List RegionLine) (o : Output) (bytes : List Byte),
      (∀ e ∈ heap, ∃ rest, EntryAt e rest) → OutInv size rs o bytes → 0 < o.window →
      bytes.length + (terminated (heap.flatMap pending)).length = size →
      (heap.flatMap pending).length ≤ fuel →
      ∃ popped : List (List Byte), popped.Perm (heap.flatMap pending) ∧
        OutInv size rs (mergeLoop page_size rs size fuel heap o) (bytes ++ terminated popped) ∧
        (∀ p ∈ mergePoints page_size rs size fuel heap o bytes.length,
          Tracked size rs (bytes ++ terminated popped) p) ∧
        storedAfter bytes.length (mergePoints page_size rs size fuel heap o bytes.length) =
          bytes.length + (terminated popped).length := by
  intro fuel
  induction fuel with
  | zero =>
    intro heap o bytes _ hinv _ _ hfuel
    cases heap with
    | nil =>
      exact ⟨[], List.Perm.refl _, by simpa [mergeLoop, terminated] using hinv,
        by simp [mergePoints], by simp [mergePoints, storedAfter, terminated]⟩
    | cons top h => simp [pending] at hfuel
  | succ f ih =>
    intro heap o bytes hheap hinv hw hsize hfuel
    cases heap with
    | nil =>
      exact ⟨[], List.Perm.refl _, by simpa [mergeLoop, terminated] using hinv,
        by simp [mergePoints], by simp [mergePoints, storedAfter, terminated]⟩
    | cons top h =>
      obtain ⟨rest, htop⟩ := hheap top (by simp)
      have hh : ∀ e ∈ h, ∃ rest, EntryAt e rest := fun e he => hheap e (by simp [he])
      have hpend : (top :: h).flatMap pending = top.line :: (rest ++ h.flatMap pending) := by
        simp [List.flatMap_cons, pending_of_entryAt htop]
      rw [hpend] at hsize hfuel ⊢
      simp only [terminated_cons, List.length_append, List.length_cons] at hsize hfuel
      have hinv1 := emitLine_spec hp hrs top.line o bytes hinv (by omega)
      obtain ⟨hpts, hst, hw1⟩ := emitPoints_inv hp hrs top.line o bytes hinv hw (by omega)
      have hnext : (∀ e ∈ advanceRun top h, ∃ rest, EntryAt e rest) ∧
          ((advanceRun top h).flatMap pending).Perm (rest ++ h.flatMap pending) := by
        cases rest with
        | nil =>
          rw [advanceRun_last_at htop]
          exact ⟨hh, by simp⟩
        | cons l rest' =>
          obtain ⟨e1, e2⟩ := advanceRun_next_at htop h
          rw [e1]
          refine ⟨?_, ?_⟩
          · intro e he
            rcases List.mem_cons.mp ((heapPush_perm _ h).subset he) with h1 | h1
            · exact ⟨rest', h1 ▸ e2⟩
            · exact hh e h1
          · refine ((heapPush_perm _ h).flatMap_right pending).trans ?_
            simp [List.flatMap_cons, pending_of_entryAt e2]
      have hlen := length_terminated_perm hnext.2
      have hlen1 : (bytes ++ top.line ++ [NL]).length = bytes.length + top.line.length + 1 := by
        simp only [List.length_append, List.length_singleton]
      obtain ⟨popped, hperm, hfin, hrest, hstr⟩ := ih (advanceRun top h) _
        (bytes ++ top.line ++ [NL]) hnext.1 hinv1 hw1
        (by rw [hlen1]; omega)
        (by rw [hnext.2.length_eq, List.length_append]; omega)
      rw [hlen1] at hrest hstr
      have htarget : bytes ++ top.line ++ [NL] ++ terminated popped =
          bytes ++ terminated (top.line :: popped) := by
        simp [terminated_cons]
      rw [htarget] at hfin hrest
      refine ⟨top.line :: popped, (hperm.trans hnext.2).cons _, ?_, ?_, ?_⟩
      · simpa only [mergeLoop, hinv1.status_ok, ne_eq, not_true_eq_false, if_false] using hfin
      · simp only [mergePoints, hinv1.status_ok, ne_eq, not_true_eq_false, if_false, hst]
        intro p hp'
        rcases List.mem_append.mp hp' with h1 | h1
        · refine (hpts p h1).mono ?_
          rw [← htarget]
          exact List.prefix_append _ _
        · exact hrest p h1
      · simp only [mergePoints, hinv1.status_ok, ne_eq, not_true_eq_false, if_false, hst]
        rw [storedAfter_append, hst, hstr, terminated_cons]
        simp only [List.length_append, List.length_cons]
        omega

/-! The points are those of the loops: the last point is the state the loop ends in -/

theorem getLast?_map_getD_append {α β : Type} (f : α → β) (d : β) (xs ys : List α) :
    ((xs ++ ys).getLast?.map f).getD d = (ys.getLast?.map f).getD ((xs.getLast?.map f).getD d) := by
  cases ys with
  | nil => simp
  | cons y ys =>
    rw [List.getLast?_append_of_ne_nil xs (List.cons_ne_nil y ys),
      List.getLast?_eq_getLast _ (List.cons_ne_nil y ys)]
    simp

theorem copyBodyPoints_last (page_size rs size : Nat) (line : List Byte) (o : Output)
    (stored lp b : Nat) (d : Output) :
    ((copyBodyPoints page_size rs size line o stored lp b).getLast?.map Point.out).getD d =
      copyBody page_size rs size line o lp b := by
  unfold copyBodyPoints
  split
  · rename_i h
    simp [copyBody, h]
  · split <;> simp

theorem copyPoints_last (page_size rs size : Nat) (line : List Byte) :
    ∀ (fuel : Nat) (o : Output) (stored lp b : Nat),
      ((copyPoints page_size rs size line fuel o stored lp b).getLast?.map Point.out).getD o =
        copyLoop page_size rs size line fuel o lp b := by
  intro fuel
  induction fuel with
  | zero =>
    intro o stored lp b
    simp only [copyPoints, copyLoop]
    split <;> simp
  | succ f ih =>
    intro o stored lp b
    simp only [copyPoints, copyLoop]
    split
    · rw [getLast?_map_getD_append, copyBodyPoints_last]
      split
      · simp
      · exact ih _ _ _ _
    · simp

theorem emitPoints_last (page_size rs size : Nat) (line : List Byte) (o : Output)
    (stored : Nat) :
    ((emitPoints page_size rs size line o stored).getLast?.map Point.out).getD o =
      emitLine page_size rs size line o := by
  simp only [emitPoints, emitLine]
  split
  · exact copyPoints_last _ _ _ _ _ _ _ _ _
  · split <;> simp

theorem mergePoints_last (page_size rs size : Nat) :
    ∀ (fuel : Nat) (heap : List RegionLine) (o : Output) (stored : Nat),
      ((mergePoints page_size rs size fuel heap o stored).getLast?.map Point.out).getD o =
        mergeLoop page_size rs size fuel heap o := by
  intro fuel
  induction fuel with
  | zero =>
    intro heap o stored
    cases heap <;> simp [mergePoints, mergeLoop]
  | succ f ih =>
    intro heap o stored
    cases heap with
    | nil => simp [mergePoints, mergeLoop]
    | cons top h =>
      simp only [mergePoints, mergeLoop]
      rw [getLast?_map_getD_append, emitPoints_last]
      split
      · simp
      · exact ih _ _ _

/-! mergeRegions over runs in which every line is followed by a newline -/

theorem storedAfter_cons (stored : Nat) (p : Point) (ps : List Point) :
    storedAfter stored (p :: ps) = storedAfter p.stored ps := by
  have := storedAfter_append stored [p] ps
  simpa [storedAfter] using this

theorem Tracked.facts {size rs : Nat} {target : List Byte} {p : Point}
    (h : Tracked size rs target p) :
    p.out.status = .ok ∧ p.out.output_file_offset + p.out.output_pos = p.stored ∧
      p.out.output_pos ≤ p.out.window ∧ 0 < p.out.window ∧ p.out.window ≤ rs ∧
      p.out.output_file_offset < size ∧ p.out.output_file_offset + p.out.window ≤ size ∧
      p.out.file.length = size ∧ p.stored ≤ target.length ∧
      p.out.file.take p.stored = target.take p.stored ∧
      (p.rollover = true → p.out.window = rs ∧ p.out.output_pos = p.out.window) := by
  obtain ⟨bytes, hinv, hst, hpre, hw, hroll⟩ := h
  have h1 := hinv.written
  have h2 := hinv.window_eq
  have h3 := hinv.pos_le
  have h4 := hinv.offset_le
  have hle : min (size - p.out.output_file_offset) rs ≤ rs := Nat.min_le_right _ _
  have hle2 : min (size - p.out.output_file_offset) rs ≤ size - p.out.output_file_offset :=
    Nat.min_le_left _ _
  refine ⟨hinv.status_ok, by omega, h3, hw, by omega, by omega, by omega, hinv.file_len,
    by rw [hst]; exact hpre.length_le, ?_, hroll⟩
  rw [hst, hinv.file_start]
  exact List.prefix_iff_eq_take.mp hpre

theorem flatMap_linesOf_terminated_runs : ∀ (runs : List (List Byte)),
    (∀ r ∈ runs, TerminatedRun r) → runs.flatMap linesOf = runs.flatMap completeLines := by
  intro runs
  induction runs with
  | nil => intro _; rfl
  | cons r rs ih =>
    intro h
    have h1 := (h r (by simp)).2
    simp only [List.flatMap_cons, ih (fun x hx => h x (by simp [hx]))]
    simp [linesOf, h1]

/-- What `mergeRegions` does on run files that are non-empty and newline-terminated, sorted
or not: it returns normally, and every point of its merge loop is on the way to the output it
leaves. -/
theorem mergeRegions_points (sorter : FileSorter) (hp : 0 < sorter.page_size)
    (hrs : 0 < sorter.region_size_) (runs : List (List Byte)) (hne : runs ≠ [])
    (hruns : ∀ r ∈ runs, TerminatedRun r) (old : Option (List Byte)) :
    ∃ final : List Byte,
      mergeRegions sorter runs old = { status := .ok, output_file := some final } ∧
      final.length = (runs.map List.length).sum ∧
      (linesOf final).Perm (runs.flatMap linesOf) ∧
      mergeRegionsPoints sorter runs old ≠ [] ∧
      (∀ p ∈ mergeRegionsPoints sorter runs old,
        Tracked (runs.map List.length).sum sorter.region_size_ final p) ∧
      storedAfter 0 (mergeRegionsPoints sorter runs old) = (runs.map List.length).sum := by
  have hsize := sum_length_terminated_runs runs hruns
  have hany : runs.any (fun run => !mapped sorter.page_size 0 run.length) = false := by
    rw [List.any_eq_false]
    intro r hr
    have : 0 < r.length := List.length_pos.mpr (hruns r hr).1
    simp [mapped_of_pos hp this]
  obtain ⟨hheap, hperm⟩ := seedHeap_at runs [] hruns (by simp)
  simp only [List.flatMap_nil, List.nil_append] at hperm
  set size := (runs.map List.length).sum with hsz
  have hpos : 0 < size := by
    obtain ⟨r, rs, rfl⟩ := List.exists_cons_of_ne_nil hne
    have : 0 < r.length := List.length_pos.mpr (hruns r (by simp)).1
    simp only [hsz, List.map_cons, List.sum_cons]
    omega
  obtain ⟨hinv0, hw0⟩ := mapOutput_inv hp hrs (resizeFile (old.getD []) size) []
    (length_resizeFile _ _) hpos (by simp)
  have hlenp := length_terminated_perm hperm
  obtain ⟨popped, hpop, hloop, hpts, hst⟩ := mergePoints_inv hp hrs size (seedHeap runs []) _ []
    hheap hinv0 hw0
    (by simp only [List.length_nil, Nat.zero_add]; rw [hlenp, hsize])
    (by
      have := length_le_length_terminated ((seedHeap runs []).flatMap pending)
      rw [hlenp, ← hsize] at this
      exact this)
  simp only [List.nil_append, List.length_nil, Nat.zero_add] at hloop hpts hst hinv0 hw0
  have hlen : (terminated popped).length = size := by
    rw [length_terminated_perm (hpop.trans hperm), hsize]
  obtain ⟨hfile, hwin⟩ := hloop.file_eq hlen
  have hnl : ∀ l ∈ popped, NL ∉ l := by
    intro l hl
    obtain ⟨r, _, hlr⟩ := List.mem_flatMap.mp ((hpop.trans hperm).subset hl)
    exact mem_completeLines_not_mem r l hlr
  have hlines := flatMap_linesOf_terminated_runs runs hruns
  refine ⟨terminated popped, ?_, hlen, ?_, ?_, ?_, ?_⟩
  · simp only [mergeRegions, hany, Bool.false_eq_true, if_false, ← hsz, hinv0.status_ok,
      hloop.status_ok, ne_eq, not_true_eq_false, hwin, hfile]
    simp only [subSizeT, Nat.zero_le, if_true, Nat.sub_zero, resizeFile, ← hlen,
      List.take_length, Nat.sub_self, List.replicate_zero, List.append_nil]
  · rw [linesOf_terminated hnl, hlines]
    exact hpop.trans hperm
  · simp only [mergeRegionsPoints, hany, Bool.false_eq_true, if_false, ← hsz, hinv0.status_ok,
      ne_eq, not_true_eq_false]
    exact List.cons_ne_nil _ _
  · simp only [mergeRegionsPoints, hany, Bool.false_eq_true, if_false, ← hsz, hinv0.status_ok,
      ne_eq, not_true_eq_false]
    intro p hp'
    rcases List.mem_cons.mp hp' with h | h
    · subst h
      exact ⟨[], hinv0, rfl, List.nil_prefix, hw0, fun h => absurd h (by simp)⟩
    · exact hpts p h
  · simp only [mergeRegionsPoints, hany, Bool.false_eq_true, if_false, ← hsz, hinv0.status_ok,
      ne_eq, not_true_eq_false]
    rw [storedAfter_cons, hst, hlen]

/-! sortFile: the run files handed to the merge -/

theorem sortFile_eq_mergeRegions (sorter : FileSorter) (hp : 0 < sorter.page_size)
    (hrs : 0 < sorter.region_size_) (input : List Byte) (old : Option (List Byte)) :
    sortFile sorter input old = mergeRegions sorter (sortFileRuns sorter input) old := by
  have h := regionPass_inv sorter hp hrs input _ (le_refl _)
  have hrs0 : sorter.region_size_ ≠ 0 := by omega
  simp only [sortFile, sortFileRuns, hrs0, if_false, h.status_ok, ne_eq, not_true_eq_false]

theorem sortFileRuns_spec (sorter : FileSorter) (hp : 0 < sorter.page_size)
    (hrs : 0 < sorter.region_size_) (input : List Byte) :
    (∀ r ∈ sortFileRuns sorter input, WellFormedRun r) ∧
      ((sortFileRuns sorter input).flatMap completeLines).Perm (linesOf input) := by
  have h := regionPass_inv sorter hp hrs input _ (le_refl _)
  rw [List.take_of_length_le (le_numRegions_mul hrs _)] at h
  unfold sortFileRuns
  set s := regionPass sorter input
    ((input.length + sorter.region_size_ - 1) / sorter.region_size_) with hs
  by_cases hl : lastSegment input = []
  · have hc : s.last_partial_line = none := by rw [h.carry, hl]; rfl
    have : carryRun s = s := by simp [carryRun, hc]
    rw [this]
    refine ⟨?_, ?_⟩
    · intro r hr
      obtain ⟨p, hp', rfl⟩ := List.mem_map.mp hr
      exact h.runs_ok p hp'
    · simpa [linesOf, hl] using h.lines
  · have hc : s.last_partial_line = some (lastSegment input) := by
      rw [h.carry]; simp [carryOf, hl]
    have hfresh : s.names_used ∉ s.region_files :=
      fun hmem => absurd (h.files_lt _ hmem) (Nat.lt_irrefl _)
    have hmap : s.region_files.map (fun p =>
          (Function.update s.temp_dir s.names_used
            (some (lastSegment input ++ [NL])) p).getD []) =
        s.region_files.map (fun p => (s.temp_dir p).getD []) := by
      apply List.map_congr_left
      intro p hp'
      have : p ≠ s.names_used := fun e => hfresh (e ▸ hp')
      rw [Function.update_noteq this]
    have hnl : ∀ l ∈ [lastSegment input], NL ∉ l := by
      intro l hl'
      rw [List.mem_singleton.mp hl']
      exact not_mem_lastSegment input
    have hlast : lastSegment input ++ [NL] = terminated [lastSegment input] := by
      simp [terminated]
    simp only [carryRun, hc, List.map_append, hmap, List.map_cons, List.map_nil,
      Function.update_same, Option.getD_some]
    refine ⟨?_, ?_⟩
    · intro r hr
      rcases List.mem_append.mp hr with h1 | h1
      · obtain ⟨p, hp', rfl⟩ := List.mem_map.mp h1
        exact h.runs_ok p hp'
      · rw [List.mem_singleton.mp h1, hlast]
        exact wellFormedRun_terminated (by simp) hnl (List.sorted_singleton _)
    · rw [List.flatMap_append]
      simp only [linesOf, hl, if_false]
      refine List.Perm.append h.lines ?_
      simp [hlast, completeLines_terminated hnl]

theorem sortFileRuns_ne_nil (sorter : FileSorter) (hp : 0 < sorter.page_size)
    (hrs : 0 < sorter.region_size_) (input : List Byte) (hne : input ≠ []) :
    sortFileRuns sorter input ≠ [] := by
  intro hc
  have := (sortFileRuns_spec sorter hp hrs input).2
  rw [hc] at this
  exact linesOf_ne_nil hne (List.Perm.nil_eq this).symm

theorem mergeRegionsPoints_nil (sorter : FileSorter) (old : Option (List Byte)) :
    mergeRegionsPoints sorter [] old = [] := by
  simp [mergeRegionsPoints, mapOutput, subSizeT, mapped_zero]

theorem getLast?_terminated {ls : List (List Byte)} (h : ls ≠ []) :
    (terminated ls).getLast? = some NL := by
  obtain ⟨init, l, rfl⟩ := (List.eq_nil_or_concat ls).resolve_left h
  simp [terminated_append, terminated]

theorem length_terminated (ls : List (List Byte)) :
    (terminated ls).length = (ls.map (fun l => l.length + 1)).sum := by
  induction ls with
  | nil => rfl
  | cons l ls ih => simp [terminated_cons, ih]; omega

theorem lastSegment_eq_nil_iff {s : List Byte} (h : s ≠ []) :
    lastSegment s = [] ↔ s.getLast? = some NL := by
  obtain ⟨init, b, rfl⟩ := (List.eq_nil_or_concat s).resolve_left h
  have hlast : (init.concat b).getLast? = some b := by simp
  rw [hlast, List.concat_eq_append]
  constructor
  · intro hl
    by_contra hb
    have hb' : NL ∉ [b] := by
      simp only [List.mem_singleton]
      exact fun e => hb (by rw [e])
    have := lastSegment_append init [b]
    rw [splitFrom_of_not_mem hb', hl] at this
    simp at this
  · intro hb
    simp only [Option.some.injEq] at hb
    rw [hb]
    exact lastSegment_append_newline init

/-! nextLine: where the scan stops -/

theorem nextLinePos_stop (mem : List Byte) (end_ : Nat) :
    ∀ (fuel pos : Nat), end_ - pos ≤ fuel → pos ≤ end_ →
      pos ≤ nextLinePos mem end_ fuel pos ∧ nextLinePos mem end_ fuel pos ≤ end_ ∧
      (∀ i, pos ≤ i → i < nextLinePos mem end_ fuel pos → mem.getD i 0 ≠ NL) ∧
      (nextLinePos mem end_ fuel pos < end_ → mem.getD (nextLinePos mem end_ fuel pos) 0 = NL) := by
  intro fuel
  induction fuel with
  | zero =>
    intro pos hf hle
    have : pos = end_ := by omega
    subst this
    simp only [nextLinePos]
    exact ⟨le_refl _, le_refl _, fun i h1 h2 => absurd h2 (by omega), fun h => absurd h (by omega)⟩
  | succ f ih =>
    intro pos hf hle
    simp only [nextLinePos]
    by_cases hlt : pos < end_
    · rw [if_pos hlt]
      by_cases hnl : mem.getD pos 0 = NL
      · rw [if_pos hnl]
        exact ⟨le_refl _, hle, fun i h1 h2 => absurd h2 (by omega), fun _ => hnl⟩
      · rw [if_neg hnl]
        obtain ⟨h1, h2, h3, h4⟩ := ih (pos + 1) (by omega) (by omega)
        refine ⟨by omega, h2, ?_, h4⟩
        intro i hi1 hi2
        by_cases hi : i = pos
        · rw [hi]; exact hnl
        · exact h3 i (by omega) hi2
    · rw [if_neg hlt]
      exact ⟨le_refl _, hle, fun i h1 h2 => absurd h2 (by omega), fun h => absurd h hlt⟩

theorem not_mem_view (mem : List Byte) (pos p : Nat)
    (h : ∀ i, pos ≤ i → i < p → mem.getD i 0 ≠ NL) : NL ∉ view mem pos p := by
  intro hmem
  obtain ⟨j, hj, hx⟩ := List.mem_iff_getElem.mp hmem
  simp only [view, List.length_take, List.length_drop] at hj
  have hb : pos + j < mem.length := by omega
  have hget : (view mem pos p)[j] = mem[pos + j] := by simp [view]
  have := h (pos + j) (by omega) (by omega)
  rw [List.getD_eq_getElem _ _ hb] at this
  exact this (hget ▸ hx)

/-! The constructor -/

theorem FileSorter.new_of_product_lt {page_size num_pages_hint : Nat}
    (h : page_size * num_pages_hint < 2 ^ 32) :
    FileSorter.new true page_size num_pages_hint =
      some { page_size := page_size, num_pages_hint_ := num_pages_hint,
             region_size_ := page_size * num_pages_hint } := by
  have h1 : page_size * num_pages_hint % 2 ^ 64 = page_size * num_pages_hint :=
    Nat.mod_eq_of_lt (by omega)
  simp only [FileSorter.new, h1, Bool.not_true, Bool.false_eq_true, if_false]
  rw [if_neg (by omega)]

theorem FileSorter.new_of_product_ge {page_size num_pages_hint : Nat}
    (h : 2 ^ 32 ≤ page_size * num_pages_hint) (hw : page_size * num_pages_hint < 2 ^ 64) :
    FileSorter.new true page_size num_pages_hint = none := by
  have h1 : page_size * num_pages_hint % 2 ^ 64 = page_size * num_pages_hint :=
    Nat.mod_eq_of_lt hw
  simp only [FileSorter.new, h1, Bool.not_true, Bool.false_eq_true, if_false]
  rw [if_pos h]

/-! sortFile: the windows of the region loop -/

/-- The call of `sortRegion` in pass `i` of the region loop of `sortFile` has the window
`regionWindow region_size_ size i` for its arguments `offset` and `in_size`. -/
theorem regionStep_regionWindow (sorter : FileSorter) (input : List Byte) (s : DriverState)
    (i : Nat) (hs : s.status = .ok) :
    (regionStep sorter input s i).last_partial_line =
      (sortRegion sorter.page_size input (regionWindow sorter.region_size_ input.length i).1
        (regionWindow sorter.region_size_ input.length i).2
        (s.temp_dir (s.region_file.getD s.names_used)) s.last_partial_line).partial_line := by
  simp [regionStep, regionWindow, hs]

/-! The claims -/

/-- C1, counterexample: on the input `banana\napple\ncherry\n` with `num_pages = 1` (pages of 4096
bytes) `sortFile` leaves `apple\nbanana\ncherry\n`, with a newline after the final line, and not
the lines joined by newlines, `apple\nbanana\ncherry`. -/
theorem sortFile_banana_ends_with_newline :
    sortFile { page_size := 4096, num_pages_hint_ := 1, region_size_ := 4096 }
        [98, 97, 110, 97, 110, 97, 10, 97, 112, 112, 108, 101, 10, 99, 104, 101, 114, 114, 121, 10]
        none =
      { status := .ok,
        output_file := some
          [97, 112, 112, 108, 101, 10, 98, 97, 110, 97, 110, 97, 10, 99, 104, 101, 114, 114, 121,
            10] } ∧
    joined (stdSort (linesOf
        [98, 97, 110, 97, 110, 97, 10, 97, 112, 112, 108, 101, 10, 99, 104, 101, 114, 114, 121,
          10])) =
      [97, 112, 112, 108, 101, 10, 98, 97, 110, 97, 110, 97, 10, 99, 104, 101, 114, 114, 121] ∧
    (sortFile { page_size := 4096, num_pages_hint_ := 1, region_size_ := 4096 }
        [98, 97, 110, 97, 110, 97, 10, 97, 112, 112, 108, 101, 10, 99, 104, 101, 114, 114, 121, 10]
        none).output_file ≠
      some (joined (stdSort (linesOf
        [98, 97, 110, 97, 110, 97, 10, 97, 112, 112, 108, 101, 10, 99, 104, 101, 114, 114, 121,
          10]))) := by
  set_option maxRecDepth 100000 in decide

/-- C1, amended: for every non-empty input file and every positive region size, `sortFile` returns
normally and leaves an output file whose bytes are exactly the lines of the input (the input split
on newline bytes, a non-empty unterminated final fragment counted as a line) in ascending
byte-lexicographic order, every line followed by one newline byte, the final line included. -/
theorem sortFile_output_sorted_terminated (sorter : FileSorter) (hp : 0 < sorter.page_size)
    (hrs : 0 < sorter.region_size_) (input : List Byte) (hne : input ≠ [])
    (output_file : Option (List Byte)) :
    sortFile sorter input output_file =
      { status := .ok, output_file := some (terminated (stdSort (linesOf input))) } :=
  sortFile_spec sorter hp hrs input hne output_file

/-- Witness of C1, amended: the input `b\na` with regions of one page of 4096 bytes. -/
theorem sortFile_output_sorted_terminated_witness :
    sortFile { page_size := 4096, num_pages_hint_ := 1, region_size_ := 4096 } [98, 10, 97] none =
      { status := .ok, output_file := some (terminated (stdSort (linesOf [98, 10, 97]))) } :=
  sortFile_output_sorted_terminated _ (by decide) (by decide) _ (by decide) none

/-- C2, for every positive region size: for every non-empty input file `sortFile` returns normally
and the lines of its output file are a permutation of the lines of the input (equal as
multisets), where the lines of a byte sequence are its newline-terminated segments plus its final
unterminated segment when that is non-empty. -/
theorem sortFile_lines_perm (sorter : FileSorter) (hp : 0 < sorter.page_size)
    (hrs : 0 < sorter.region_size_) (input : List Byte) (hne : input ≠ [])
    (output_file : Option (List Byte)) :
    ∃ out, sortFile sorter input output_file = { status := .ok, output_file := some out } ∧
      (linesOf out).Perm (linesOf input) := by
  refine ⟨_, sortFile_spec sorter hp hrs input hne output_file, ?_⟩
  rw [linesOf_terminated (fun l hl => not_mem_of_mem_linesOf input l ((stdSort_perm _).subset hl))]
  exact stdSort_perm _

/-- Witness of C2, for every positive region size: the input `b\na`, split by regions of two
bytes. -/
theorem sortFile_lines_perm_witness :
    ∃ out, sortFile { page_size := 1, num_pages_hint_ := 2, region_size_ := 2 } [98, 10, 97]
        none = { status := .ok, output_file := some out } ∧
      (linesOf out).Perm (linesOf [98, 10, 97]) :=
  sortFile_lines_perm _ (by decide) (by decide) _ (by decide) none

/-- C2, the code at the failing input: with pages of 4096 bytes the constructor accepts
`num_pages_hint = 2^52`, whose `size_t` product with the page size wraps around to the region
size 0, and `num_pages_hint = 0`; for the input `b\na`, which has the two lines `b` and `a`,
`sortFile` of either sorter divides by zero when it computes `num_regions` and leaves no output
file, so that both lines of the input are lost. -/
theorem sortFile_accepted_zero_region_loses_lines :
    FileSorter.new true 4096 (2 ^ 52) =
        some { page_size := 4096, num_pages_hint_ := 2 ^ 52, region_size_ := 0 } ∧
      FileSorter.new true 4096 0 =
        some { page_size := 4096, num_pages_hint_ := 0, region_size_ := 0 } ∧
      linesOf [98, 10, 97] = [[98], [97]] ∧
      sortFile { page_size := 4096, num_pages_hint_ := 2 ^ 52, region_size_ := 0 } [98, 10, 97]
          none = { status := .divisionByZero, output_file := none } ∧
      sortFile { page_size := 4096, num_pages_hint_ := 0, region_size_ := 0 } [98, 10, 97]
          none = { status := .divisionByZero, output_file := none } := by
  decide

/-- C3: for every non-empty input file and every positive region size, `sortFile` returns normally
and every two adjacent lines of its output file are in the order `lineLe`, the lexicographic order
on sequences of unsigned bytes in which a proper prefix comes first (`lineLe_iff_le`). -/
theorem sortFile_lines_ordered (sorter : FileSorter) (hp : 0 < sorter.page_size)
    (hrs : 0 < sorter.region_size_) (input : List Byte) (hne : input ≠ [])
    (output_file : Option (List Byte)) :
    ∃ out, sortFile sorter input output_file = { status := .ok, output_file := some out } ∧
      (linesOf out).Chain' (fun a b => lineLe a b = true ∧ a ≤ b) := by
  refine ⟨_, sortFile_spec sorter hp hrs input hne output_file, ?_⟩
  rw [linesOf_terminated (fun l hl => not_mem_of_mem_linesOf input l ((stdSort_perm _).subset hl))]
  have h : (stdSort (linesOf input)).Chain' LineLe := (stdSort_sorted _).chain'
  exact h.imp (fun a b hab => ⟨hab, (lineLe_iff_le a b).mp hab⟩)

/-- Witness of C3: the input `b\na`, split by regions of two bytes. -/
theorem sortFile_lines_ordered_witness :
    ∃ out, sortFile { page_size := 1, num_pages_hint_ := 2, region_size_ := 2 } [98, 10, 97]
        none = { status := .ok, output_file := some out } ∧
      (linesOf out).Chain' (fun a b => lineLe a b = true ∧ a ≤ b) :=
  sortFile_lines_ordered _ (by decide) (by decide) _ (by decide) none

/-- C4, for positive region sizes: for every input file and any two positive region sizes, on
the same system and from the same state of the output path, `sortFile` ends in the same way and
leaves byte for byte the same output file. -/
theorem sortFile_region_size_invariant (page_size : Nat) (hp : 0 < page_size)
    (num_pages₁ region_size₁ num_pages₂ region_size₂ : Nat) (h₁ : 0 < region_size₁)
    (h₂ : 0 < region_size₂) (input : List Byte) (output_file : Option (List Byte)) :
    sortFile
        { page_size := page_size, num_pages_hint_ := num_pages₁, region_size_ := region_size₁ }
        input output_file =
      sortFile
        { page_size := page_size, num_pages_hint_ := num_pages₂, region_size_ := region_size₂ }
        input output_file := by
  by_cases hne : input = []
  · subst hne
    rw [sortFile_empty _ h₁, sortFile_empty _ h₂]
  · rw [sortFile_spec _ hp h₁ input hne, sortFile_spec _ hp h₂ input hne]

/-- Witness of C4, for positive region sizes: the input `b\na` with regions of one and of two
pages of two bytes. -/
theorem sortFile_region_size_invariant_witness :
    sortFile { page_size := 2, num_pages_hint_ := 1, region_size_ := 2 } [98, 10, 97] none =
      sortFile { page_size := 2, num_pages_hint_ := 2, region_size_ := 4 } [98, 10, 97] none :=
  sortFile_region_size_invariant 2 (by decide) 1 2 2 4 (by decide) (by decide) _ none

/-- C4, the code at the failing input: with pages of 4096 bytes the constructor accepts both
`num_pages_hint = 1` (region size 4096) and `num_pages_hint = 2^52` (the `size_t` product wraps
around to the region size 0); for the input `b\na` the first sorter leaves the output file
`a\nb\n`, while `sortFile` of the second divides by zero when it computes `num_regions` and
leaves no output file: two accepted values of `num_pages >= 1` with different outcomes. -/
theorem sortFile_num_pages_one_and_wrapped_differ :
    FileSorter.new true 4096 1 =
        some { page_size := 4096, num_pages_hint_ := 1, region_size_ := 4096 } ∧
      FileSorter.new true 4096 (2 ^ 52) =
        some { page_size := 4096, num_pages_hint_ := 2 ^ 52, region_size_ := 0 } ∧
      sortFile { page_size := 4096, num_pages_hint_ := 1, region_size_ := 4096 } [98, 10, 97]
          none = { status := .ok, output_file := some [97, 10, 98, 10] } ∧
      sortFile { page_size := 4096, num_pages_hint_ := 2 ^ 52, region_size_ := 0 } [98, 10, 97]
          none = { status := .divisionByZero, output_file := none } ∧
      sortFile { page_size := 4096, num_pages_hint_ := 1, region_size_ := 4096 } [98, 10, 97]
          none ≠
        sortFile { page_size := 4096, num_pages_hint_ := 2 ^ 52, region_size_ := 0 }
          [98, 10, 97] none := by
  decide

/-- C5, counterexample: the input `a`, one line without a trailing newline and so in ascending
order, is sorted to `a\n`, which is not the input. -/
theorem sortFile_sorted_unterminated_grows :
    (linesOf [97]).Sorted LineLe ∧
    sortFile { page_size := 4096, num_pages_hint_ := 1, region_size_ := 4096 } [97] none =
      { status := .ok, output_file := some [97, 10] } ∧
    (sortFile { page_size := 4096, num_pages_hint_ := 1, region_size_ := 4096 } [97]
      none).output_file ≠ some [97] := by
  refine ⟨?_, ?_, ?_⟩ <;> decide

/-- C5, amended: for every non-empty input file whose lines are in ascending byte-lexicographic
order and every positive region size, `sortFile` returns normally; its output file is byte for
byte the input when the input ends with a newline, and the input followed by one newline byte
when it does not. -/
theorem sortFile_sorted_input (sorter : FileSorter) (hp : 0 < sorter.page_size)
    (hrs : 0 < sorter.region_size_) (input : List Byte) (hne : input ≠ [])
    (hsorted : (linesOf input).Sorted LineLe) (output_file : Option (List Byte)) :
    sortFile sorter input output_file =
      { status := .ok,
        output_file := some (if lastSegment input = [] then input else input ++ [NL]) } := by
  rw [sortFile_spec sorter hp hrs input hne output_file, stdSort_eq_self hsorted,
    terminated_linesOf]

/-- Witness of C5, amended: the sorted input `a\nb\n`. -/
theorem sortFile_sorted_input_witness :
    sortFile { page_size := 4096, num_pages_hint_ := 1, region_size_ := 4096 } [97, 10, 98, 10]
        none =
      { status := .ok,
        output_file := some
          (if lastSegment [97, 10, 98, 10] = [] then [97, 10, 98, 10]
            else [97, 10, 98, 10] ++ [NL]) } :=
  sortFile_sorted_input _ (by decide) (by decide) _ (by decide)
    (by decide) none

/-- C6, the code at the failing input: for the empty input file, with `num_pages = 1` and pages of
4096 bytes, `sortFile` does not complete: `mergeRegions` maps a window of length 0 of the output
file, `mmap` fails, and the constructor of the mapping throws `std::system_error`. The output file
is left present with length 0. -/
theorem sortFile_empty_input_throws :
    sortFile { page_size := 4096, num_pages_hint_ := 1, region_size_ := 4096 } [] none =
      { status := .systemError, output_file := some [] } := by
  decide

/-- C7: for every list of run files that are non-empty, have every line followed by a newline byte
and have their lines in ascending order, and every positive region size, `mergeRegions` leaves an
output file whose sequence of lines is in ascending byte-lexicographic order and is a permutation
of all the lines of all the runs; it returns normally when there is at least one run. -/
theorem mergeRegions_sorted_union (sorter : FileSorter) (hp : 0 < sorter.page_size)
    (hrs : 0 < sorter.region_size_) (region_files : List (List Byte))
    (hruns : ∀ run ∈ region_files, WellFormedRun run) (output_file : Option (List Byte)) :
    ∃ out, (mergeRegions sorter region_files output_file).output_file = some out ∧
      (linesOf out).Sorted LineLe ∧ (linesOf out).Perm (region_files.flatMap linesOf) ∧
      (region_files ≠ [] → (mergeRegions sorter region_files output_file).status = .ok) := by
  by_cases hne : region_files = []
  · subst hne
    refine ⟨[], by rw [mergeRegions_nil], ?_, ?_, fun h => absurd rfl h⟩
    · decide
    · exact List.Perm.refl _
  · have hnl : ∀ l ∈ stdSort (region_files.flatMap completeLines), NL ∉ l := by
      intro l hl
      obtain ⟨r, _, hlr⟩ := List.mem_flatMap.mp ((stdSort_perm _).subset hl)
      exact mem_completeLines_not_mem r l hlr
    rw [mergeRegions_spec sorter hp hrs region_files hne hruns output_file]
    refine ⟨_, rfl, ?_, ?_, fun _ => rfl⟩
    · rw [linesOf_terminated hnl]; exact stdSort_sorted _
    · rw [linesOf_terminated hnl, flatMap_linesOf_runs region_files hruns]
      exact stdSort_perm _

/-- Witness of C7: the runs `a\nc\n` and `b\n`, merged through windows of four bytes. -/
theorem mergeRegions_sorted_union_witness :
    ∃ out, (mergeRegions { page_size := 4, num_pages_hint_ := 1, region_size_ := 4 }
        [[97, 10, 99, 10], [98, 10]] none).output_file = some out ∧
      (linesOf out).Sorted LineLe ∧
      (linesOf out).Perm ([[97, 10, 99, 10], [98, 10]].flatMap linesOf) ∧
      (([[97, 10, 99, 10], [98, 10]] : List (List Byte)) ≠ [] →
        (mergeRegions { page_size := 4, num_pages_hint_ := 1, region_size_ := 4 }
          [[97, 10, 99, 10], [98, 10]] none).status = .ok) :=
  mergeRegions_sorted_union _ (by decide) (by decide) _
    (by decide) none

/-- C8, counterexample: for the window `b\na\n` and no carry-over `sortRegion` returns true and
leaves the run file `a\nb\n`, with a newline after the last line, and not `a\nb`. -/
theorem sortRegion_run_ends_with_newline :
    (sortRegion 4096 [98, 10, 97, 10] 0 4 none none).written = true ∧
    (sortRegion 4096 [98, 10, 97, 10] 0 4 none none).output_file = [97, 10, 98, 10] ∧
    joined (stdSort (completeLines [98, 10, 97, 10])) = [97, 10, 98] ∧
    (sortRegion 4096 [98, 10, 97, 10] 0 4 none none).output_file ≠
      joined (stdSort (completeLines [98, 10, 97, 10])) := by
  decide

/-- C8, amended: for every region window `w` and newline-free carry-over for which `sortRegion`
returns true, the run file it leaves after its final truncation consists of the complete lines
of the region (those of the carry-over followed by the window) in ascending byte order, every line
followed by one newline byte, the last line included. -/
theorem sortRegion_run_terminated {page_size : Nat} (hp : 0 < page_size)
    (pre w post : List Byte) (old carry : Option (List Byte)) (hc : NL ∉ carry.getD [])
    (hwritten :
      (sortRegion page_size (pre ++ w ++ post) pre.length w.length old carry).written = true) :
    (sortRegion page_size (pre ++ w ++ post) pre.length w.length old carry).status = .ok ∧
      (sortRegion page_size (pre ++ w ++ post) pre.length w.length old carry).output_file =
        terminated (stdSort (completeLines (carry.getD [] ++ w))) := by
  have hnl := (sortRegion_written_iff hp pre w post old carry).mp hwritten
  have hw : w ≠ [] := fun h => by simp [h] at hnl
  have hd : (splitFrom (carry.getD []) w).dropLast ≠ [] :=
    fun h => (dropLast_splitFrom_eq_nil_iff _ _).mp h hnl
  have he : (splitFrom (carry.getD []) w).dropLast.isEmpty = false := by
    cases h : (splitFrom (carry.getD []) w).dropLast with
    | nil => exact absurd h hd
    | cons x xs => rfl
  rw [sortRegion_spec hp pre w post hw old carry]
  refine ⟨rfl, ?_⟩
  simp only [he, Bool.false_eq_true, if_false, completeLines]
  rw [splitFrom_carry hc]

/-- Witness of C8, amended: the window `b\na\nx` behind the prefix `z` of the input, with the
carry-over `c`. -/
theorem sortRegion_run_terminated_witness :
    (sortRegion 4096 ([122] ++ [98, 10, 97, 10, 120] ++ []) ([122] : List Byte).length
        ([98, 10, 97, 10, 120] : List Byte).length none (some [99])).status = .ok ∧
      (sortRegion 4096 ([122] ++ [98, 10, 97, 10, 120] ++ []) ([122] : List Byte).length
        ([98, 10, 97, 10, 120] : List Byte).length none (some [99])).output_file =
        terminated (stdSort (completeLines ((some [99] : Option (List Byte)).getD [] ++
          [98, 10, 97, 10, 120]))) :=
  sortRegion_run_terminated (by decide) [122] [98, 10, 97, 10, 120] [] none (some [99])
    (by decide) (by decide)

/-- C9: for every non-empty window `w` and every carry-over `c` that is absent or newline-free, with
`s = c ++ w`: `sortRegion` returns normally, the lines it sorted are in ascending order and are,
as a multiset, the newline-terminated segments of `s`, the run file it wrote (when it returns
true) holds exactly these lines, and the new carry-over is the bytes of `s` behind its last
newline if there are any and is absent otherwise; it is absent when `w` ends with a newline. -/
theorem sortRegion_carry_decomposition {page_size : Nat} (hp : 0 < page_size)
    (pre w post : List Byte) (hw : w ≠ []) (old carry : Option (List Byte))
    (hc : NL ∉ carry.getD []) :
    (sortRegion page_size (pre ++ w ++ post) pre.length w.length old carry).status = .ok ∧
      (sortRegion page_size (pre ++ w ++ post) pre.length w.length old carry).lines.Perm
        (completeLines (carry.getD [] ++ w)) ∧
      (sortRegion page_size (pre ++ w ++ post) pre.length w.length old carry).lines.Sorted
        LineLe ∧
      ((sortRegion page_size (pre ++ w ++ post) pre.length w.length old carry).written = true →
        linesOf (sortRegion page_size (pre ++ w ++ post) pre.length w.length old
            carry).output_file =
          (sortRegion page_size (pre ++ w ++ post) pre.length w.length old carry).lines) ∧
      (sortRegion page_size (pre ++ w ++ post) pre.length w.length old carry).partial_line =
        (if lastSegment (carry.getD [] ++ w) = [] then none
          else some (lastSegment (carry.getD [] ++ w))) ∧
      (w.getLast? = some NL →
        (sortRegion page_size (pre ++ w ++ post) pre.length w.length old carry).partial_line =
          none) := by
  have hnl : ∀ l ∈ stdSort (splitFrom [] (carry.getD [] ++ w)).dropLast, NL ∉ l := fun l hl =>
    mem_completeLines_not_mem (carry.getD [] ++ w) l ((stdSort_perm _).subset hl)
  rw [sortRegion_spec hp pre w post hw old carry, splitFrom_carry hc]
  refine ⟨rfl, stdSort_perm _, stdSort_sorted _, ?_, rfl, ?_⟩
  · intro hwr
    simp only [Bool.not_eq_true'] at hwr
    simp only [hwr, Bool.false_eq_true, if_false]
    exact linesOf_terminated hnl
  · intro hlast
    obtain ⟨w', hw'⟩ := List.getLast?_eq_some_iff.mp hlast
    have := lastSegment_append_newline (carry.getD [] ++ w')
    rw [List.append_assoc, ← hw'] at this
    show carryOf (lastSegment (carry.getD [] ++ w)) = none
    rw [this]
    rfl

/-- Witness of C9: the window `b\na\nx` behind the prefix `z` of the input, with the
carry-over `c`. -/
theorem sortRegion_carry_decomposition_witness :
    (sortRegion 4096 [122, 98, 10, 97, 10, 120] 1 5 none (some [99])).lines.Perm
        (completeLines [99, 98, 10, 97, 10, 120]) ∧
      (sortRegion 4096 [122, 98, 10, 97, 10, 120] 1 5 none (some [99])).partial_line =
        some [120] :=
  have h := @sortRegion_carry_decomposition 4096 (by decide) [122]
    [98, 10, 97, 10, 120] [] (by decide) none (some [99]) (by decide)
  ⟨h.2.1, h.2.2.2.2.1.trans (by decide)⟩

/-- C10: in the pass of the region loop of `sortFile` over a non-empty window `w`, `sortRegion`
returns true if and only if `w` contains a newline byte; when it returns false it has returned
normally, the new carry-over is the old carry-over followed by all bytes of `w`, and `sortFile`
adds no run file for the region and keeps the temp path in `region_file`, so that the next pass
uses the same path. -/
theorem sortRegion_written_iff_newline (sorter : FileSorter) (hp : 0 < sorter.page_size)
    (pre w post : List Byte) (hw : w ≠ []) (s : DriverState) (i : Nat) (hs : s.status = .ok)
    (hoff : i * sorter.region_size_ = pre.length)
    (hlen : min sorter.region_size_ ((pre ++ w ++ post).length - i * sorter.region_size_) =
      w.length) :
    ((sortRegion sorter.page_size (pre ++ w ++ post) pre.length w.length
        (s.temp_dir (s.region_file.getD s.names_used)) s.last_partial_line).written = true ↔
      NL ∈ w) ∧
    ((sortRegion sorter.page_size (pre ++ w ++ post) pre.length w.length
        (s.temp_dir (s.region_file.getD s.names_used)) s.last_partial_line).written = false →
      (sortRegion sorter.page_size (pre ++ w ++ post) pre.length w.length
        (s.temp_dir (s.region_file.getD s.names_used)) s.last_partial_line).status = .ok ∧
      (sortRegion sorter.page_size (pre ++ w ++ post) pre.length w.length
        (s.temp_dir (s.region_file.getD s.names_used)) s.last_partial_line).partial_line =
          some (s.last_partial_line.getD [] ++ w) ∧
      (regionStep sorter (pre ++ w ++ post) s i).last_partial_line =
        some (s.last_partial_line.getD [] ++ w) ∧
      (regionStep sorter (pre ++ w ++ post) s i).region_files = s.region_files ∧
      (regionStep sorter (pre ++ w ++ post) s i).region_file =
        some (s.region_file.getD s.names_used) ∧
      (regionStep sorter (pre ++ w ++ post) s i).region_file.getD
          (regionStep sorter (pre ++ w ++ post) s i).names_used =
        s.region_file.getD s.names_used) := by
  refine ⟨sortRegion_written_iff hp pre w post _ _, ?_⟩
  intro hwr
  have hnl : NL ∉ w := by
    intro h
    have := (sortRegion_written_iff hp pre w post
      (s.temp_dir (s.region_file.getD s.names_used)) s.last_partial_line).mpr h
    rw [hwr] at this
    exact absurd this (by decide)
  have hspec := sortRegion_spec hp pre w post hw (s.temp_dir (s.region_file.getD s.names_used))
    s.last_partial_line
  have hpart : carryOf ((splitFrom (s.last_partial_line.getD []) w).getLastD []) =
      some (s.last_partial_line.getD [] ++ w) := by
    rw [splitFrom_of_not_mem hnl]
    simp [carryOf, hw]
  rw [hoff] at hlen
  have hstep : regionStep sorter (pre ++ w ++ post) s i =
      { status := .ok,
        temp_dir := Function.update s.temp_dir (s.region_file.getD s.names_used)
          (some (sortRegion sorter.page_size (pre ++ w ++ post) pre.length w.length
            (s.temp_dir (s.region_file.getD s.names_used)) s.last_partial_line).output_file),
        names_used := if s.region_file.isNone then s.names_used + 1 else s.names_used,
        region_files := s.region_files,
        last_partial_line := some (s.last_partial_line.getD [] ++ w),
        region_file := some (s.region_file.getD s.names_used) } := by
    simp only [regionStep, hs, ne_eq, not_true_eq_false, if_false, hoff, hlen, hwr,
      Bool.false_eq_true]
    rw [hspec, hpart]
  rw [hstep]
  refine ⟨?_, ?_, rfl, rfl, rfl, rfl⟩
  · rw [hspec]
  · rw [hspec]; exact hpart

/-- Witness of C10: the first pass over the input `ab` with the carry-over `c`. -/
theorem sortRegion_written_iff_newline_witness :
    (sortRegion 4096 [97, 98] 0 2 none (some [99])).written = false ∧
      (sortRegion 4096 [97, 98] 0 2 none (some [99])).partial_line = some [99, 97, 98] ∧
      (regionStep { page_size := 4096, num_pages_hint_ := 1, region_size_ := 4096 } [97, 98]
        { status := .ok, temp_dir := fun _ => none, names_used := 0, region_files := [],
          last_partial_line := some [99], region_file := none } 0).region_files = [] ∧
      (regionStep { page_size := 4096, num_pages_hint_ := 1, region_size_ := 4096 } [97, 98]
        { status := .ok, temp_dir := fun _ => none, names_used := 0, region_files := [],
          last_partial_line := some [99], region_file := none } 0).region_file = some 0 :=
  have h := sortRegion_written_iff_newline
    { page_size := 4096, num_pages_hint_ := 1, region_size_ := 4096 } (by decide) [] [97, 98] []
    (by decide)
    { status := .ok, temp_dir := fun _ => none, names_used := 0, region_files := [],
      last_partial_line := some [99], region_file := none } 0 rfl (by decide) (by decide)
  have hf : (sortRegion 4096 [97, 98] 0 2 none (some [99])).written = false := by decide
  ⟨hf, (h.2 hf).2.1, (h.2 hf).2.2.2.1, (h.2 hf).2.2.2.2.1⟩

/-- C11: for every mapping, every end of range and every `pos <= end`, `nextLine(pos, end)`
returns the view `[pos, p)` and leaves `pos = p`, where `p` lies between the old `pos` and `end`,
no byte in `[pos, p)` is a newline, and `p` is `end` or the position of a newline byte; so `p`
is the position of the first newline at or behind `pos` if there is one before `end` and is `end`
otherwise, the view holds no newline, and `pos` is not moved past the newline. -/
theorem nextLine_first_newline (mem : List Byte) (pos end_ : Nat) (h : pos ≤ end_) :
    (nextLine mem pos end_).1 = view mem pos (nextLine mem pos end_).2 ∧
      pos ≤ (nextLine mem pos end_).2 ∧ (nextLine mem pos end_).2 ≤ end_ ∧
      (∀ i, pos ≤ i → i < (nextLine mem pos end_).2 → mem.getD i 0 ≠ NL) ∧
      ((nextLine mem pos end_).2 < end_ → mem.getD (nextLine mem pos end_).2 0 = NL) ∧
      NL ∉ (nextLine mem pos end_).1 := by
  obtain ⟨h1, h2, h3, h4⟩ := nextLinePos_stop mem end_ (end_ - pos) pos (le_refl _) h
  exact ⟨rfl, h1, h2, h3, h4, not_mem_view mem pos _ h3⟩

/-- Witness of C11: the scan of `ab\ncd` from position 1 stops at the newline at position 2. -/
theorem nextLine_first_newline_witness :
    (nextLine [97, 98, 10, 99, 100] 1 5).1 = view [97, 98, 10, 99, 100] 1
        (nextLine [97, 98, 10, 99, 100] 1 5).2 ∧
      1 ≤ (nextLine [97, 98, 10, 99, 100] 1 5).2 ∧ (nextLine [97, 98, 10, 99, 100] 1 5).2 ≤ 5 ∧
      (∀ i, 1 ≤ i → i < (nextLine [97, 98, 10, 99, 100] 1 5).2 →
        ([97, 98, 10, 99, 100] : List Byte).getD i 0 ≠ NL) ∧
      ((nextLine [97, 98, 10, 99, 100] 1 5).2 < 5 →
        ([97, 98, 10, 99, 100] : List Byte).getD (nextLine [97, 98, 10, 99, 100] 1 5).2 0 = NL) ∧
      NL ∉ (nextLine [97, 98, 10, 99, 100] 1 5).1 :=
  nextLine_first_newline [97, 98, 10, 99, 100] 1 5 (by decide)

/-- C12, the code at the failing input: with pages of 4096 bytes and `num_pages_hint = 2^52`
(a 64-bit value) the product `num_pages_hint × page_size` is `2^64`, which is not below `2^32`,
and yet the constructor succeeds: the `size_t` product wraps around to 0 and passes the check
`region_size_ >= (1ULL << 32ULL)`. -/
theorem FileSorter_new_accepts_wrapped_product :
    2 ^ 52 < 2 ^ 64 ∧ 2 ^ 32 ≤ 2 ^ 52 * 4096 ∧
      FileSorter.new true 4096 (2 ^ 52) =
        some { page_size := 4096, num_pages_hint_ := 2 ^ 52, region_size_ := 0 } := by
  decide

/-- C13, the code at the failing input: with `num_pages_hint = 0` the constructor succeeds and
leaves `region_size_ = 0`, which is not positive, and `sortFile` of that sorter divides by zero
when it computes `num_regions`. -/
theorem FileSorter_new_accepts_zero_pages :
    FileSorter.new true 4096 0 =
        some { page_size := 4096, num_pages_hint_ := 0, region_size_ := 0 } ∧
      sortFile { page_size := 4096, num_pages_hint_ := 0, region_size_ := 0 } [97, 10] none =
        { status := .divisionByZero, output_file := none } := by
  decide

/-- C14: for run files in which every line is followed by a newline (the form the region pass
and the driver write), at every point of the merge loop of `mergeRegions`, those right before
and right behind a window rollover included, `output_file_offset + (output_pos - output->begin())`
is the number of bytes stored to the output so far; a rollover happens only out of a full window
of `region_size_` bytes; and the bytes stored so far stand at the start of the file exactly as in
the output that `mergeRegions` leaves, so that no byte is skipped or overwritten, also in a line
that is split across rollovers. -/
theorem mergeRegions_window_accounting (sorter : FileSorter) (hp : 0 < sorter.page_size)
    (hrs : 0 < sorter.region_size_) (region_files : List (List Byte))
    (hruns : ∀ run ∈ region_files, TerminatedRun run) (output_file : Option (List Byte)) :
    ∀ p ∈ mergeRegionsPoints sorter region_files output_file,
      p.out.output_file_offset + p.out.output_pos = p.stored ∧
      (p.rollover = true →
        p.out.window = sorter.region_size_ ∧ p.out.output_pos = p.out.window) ∧
      p.stored ≤ ((mergeRegions sorter region_files output_file).output_file.getD []).length ∧
      p.out.file.take p.stored =
        ((mergeRegions sorter region_files output_file).output_file.getD []).take p.stored := by
  intro p hp'
  by_cases hne : region_files = []
  · subst hne
    rw [mergeRegionsPoints_nil] at hp'
    exact absurd hp' (List.not_mem_nil _)
  · obtain ⟨final, hfinal, _, _, _, hpts, _⟩ :=
      mergeRegions_points sorter hp hrs region_files hne hruns output_file
    obtain ⟨_, h2, _, _, _, _, _, _, h9, h10, h11⟩ := (hpts p hp').facts
    rw [hfinal]
    exact ⟨h2, h11, h9, h10⟩

/-- Witness of C14: the run `abcde\n` merged through windows of two bytes, at the point right
before the second rollover, in the middle of the line. -/
theorem mergeRegions_window_accounting_witness :
    ({ out := { status := .ok, file := [97, 98, 99, 100, 0, 0], output_file_offset := 2,
                window := 2, output_pos := 2 },
       stored := 4, rollover := true } : Point) ∈
        mergeRegionsPoints { page_size := 2, num_pages_hint_ := 1, region_size_ := 2 }
          [[97, 98, 99, 100, 101, 10]] none ∧
      (2 + 2 = 4 ∧ (true = true → 2 = 2 ∧ 2 = 2) ∧
        4 ≤ ((mergeRegions { page_size := 2, num_pages_hint_ := 1, region_size_ := 2 }
          [[97, 98, 99, 100, 101, 10]] none).output_file.getD []).length ∧
        ([97, 98, 99, 100, 0, 0] : List Byte).take 4 =
          ((mergeRegions { page_size := 2, num_pages_hint_ := 1, region_size_ := 2 }
            [[97, 98, 99, 100, 101, 10]] none).output_file.getD []).take 4) :=
  ⟨by decide,
    mergeRegions_window_accounting { page_size := 2, num_pages_hint_ := 1, region_size_ := 2 }
      (by decide) (by decide) [[97, 98, 99, 100, 101, 10]] (by decide) none
      { out := { status := .ok, file := [97, 98, 99, 100, 0, 0], output_file_offset := 2,
                 window := 2, output_pos := 2 },
        stored := 4, rollover := true } (by decide)⟩

/-- C15: for at least one run file, every run non-empty with every line followed by a newline,
`mergeRegions` returns normally, and at every point of its merge loop no store has gone outside
the window or the file (the status is `ok`), the write position stands at most at the end of the
window, so that every byte written, of a line or a newline, lies strictly before that end, and the
window that is mapped starts at an offset strictly below the size of the output, lies inside the
file, and has a length that is not zero and at most `region_size_`. -/
theorem mergeRegions_write_safety (sorter : FileSorter) (hp : 0 < sorter.page_size)
    (hrs : 0 < sorter.region_size_) (region_files : List (List Byte))
    (hne : region_files ≠ []) (hruns : ∀ run ∈ region_files, TerminatedRun run)
    (output_file : Option (List Byte)) :
    (mergeRegions sorter region_files output_file).status = .ok ∧
      mergeRegionsPoints sorter region_files output_file ≠ [] ∧
      ∀ p ∈ mergeRegionsPoints sorter region_files output_file,
        p.out.status = .ok ∧ p.out.output_pos ≤ p.out.window ∧
        p.out.output_file_offset < (region_files.map List.length).sum ∧
        p.out.output_file_offset + p.out.window ≤ (region_files.map List.length).sum ∧
        0 < p.out.window ∧ p.out.window ≤ sorter.region_size_ := by
  obtain ⟨final, hfinal, _, _, hnonempty, hpts, _⟩ :=
    mergeRegions_points sorter hp hrs region_files hne hruns output_file
  refine ⟨by rw [hfinal], hnonempty, ?_⟩
  intro p hp'
  obtain ⟨h1, _, h3, h4, h5, h6, h7, _, _, _, _⟩ := (hpts p hp').facts
  exact ⟨h1, h3, h6, h7, h4, h5⟩

/-- Witness of C15: the runs `a\nc\n` and `b\n`, merged through windows of four bytes. -/
theorem mergeRegions_write_safety_witness :
    (mergeRegions { page_size := 4, num_pages_hint_ := 1, region_size_ := 4 }
        [[97, 10, 99, 10], [98, 10]] none).status = .ok ∧
      mergeRegionsPoints { page_size := 4, num_pages_hint_ := 1, region_size_ := 4 }
        [[97, 10, 99, 10], [98, 10]] none ≠ [] ∧
      ∀ p ∈ mergeRegionsPoints { page_size := 4, num_pages_hint_ := 1, region_size_ := 4 }
          [[97, 10, 99, 10], [98, 10]] none,
        p.out.status = .ok ∧ p.out.output_pos ≤ p.out.window ∧
        p.out.output_file_offset < (([[97, 10, 99, 10], [98, 10]] : List (List Byte)).map
          List.length).sum ∧
        p.out.output_file_offset + p.out.window ≤
          (([[97, 10, 99, 10], [98, 10]] : List (List Byte)).map List.length).sum ∧
        0 < p.out.window ∧ p.out.window ≤ 4 :=
  mergeRegions_write_safety { page_size := 4, num_pages_hint_ := 1, region_size_ := 4 }
    (by decide) (by decide) [[97, 10, 99, 10], [98, 10]] (by decide) (by decide) none

/-- C16: for every non-empty window `w` of the input and every carry-over, the writing loop of
`sortRegion` stays inside the output mapping of `in_size + |carry|` bytes (it ends with a write
position and without an out-of-bounds copy), the write position it ends at is the number of bytes
it wrote and is at most `in_size + |carry|`, and when `sortRegion` returns true the file is
truncated to exactly that many bytes. -/
theorem sortRegion_writes_within_buffer {page_size : Nat} (hp : 0 < page_size)
    (pre w post : List Byte) (hw : w ≠ []) (old carry : Option (List Byte)) :
    (sortRegion page_size (pre ++ w ++ post) pre.length w.length old carry).status = .ok ∧
      (resizeFile (old.getD []) (w.length + (carry.getD []).length)).length =
        w.length + (carry.getD []).length ∧
      ∃ out pos,
        writeLines (sortRegion page_size (pre ++ w ++ post) pre.length w.length old carry).lines
            (resizeFile (old.getD []) (w.length + (carry.getD []).length)) 0 = some (out, pos) ∧
          pos = (terminated
            (sortRegion page_size (pre ++ w ++ post) pre.length w.length old carry).lines).length ∧
          pos ≤ w.length + (carry.getD []).length ∧
          ((sortRegion page_size (pre ++ w ++ post) pre.length w.length old carry).written = true →
            (sortRegion page_size (pre ++ w ++ post) pre.length w.length old
              carry).output_file.length = pos) := by
  have hlen : (terminated (stdSort (splitFrom (carry.getD []) w).dropLast)).length ≤
      w.length + (carry.getD []).length := by
    rw [length_terminated_perm (stdSort_perm _)]
    exact length_terminated_dropLast_le _ _
  have hwrite := writeLines_spec (stdSort (splitFrom (carry.getD []) w).dropLast)
    (resizeFile (old.getD []) (w.length + (carry.getD []).length))
    (by rw [length_resizeFile]; exact hlen)
  rw [sortRegion_spec hp pre w post hw old carry]
  refine ⟨rfl, length_resizeFile _ _, _, _, hwrite, rfl, hlen, ?_⟩
  intro hwr
  simp only [Bool.not_eq_true'] at hwr
  simp only [hwr, Bool.false_eq_true, if_false]

/-- Witness of C16: the window `b\na\nx` behind the prefix `z` of the input, with the
carry-over `c`. -/
theorem sortRegion_writes_within_buffer_witness :
    (sortRegion 4096 ([122] ++ [98, 10, 97, 10, 120] ++ []) ([122] : List Byte).length
        ([98, 10, 97, 10, 120] : List Byte).length none (some [99])).status = .ok ∧
      (sortRegion 4096 ([122] ++ [98, 10, 97, 10, 120] ++ []) ([122] : List Byte).length
        ([98, 10, 97, 10, 120] : List Byte).length none (some [99])).output_file.length ≤
        5 + 1 :=
  have h := @sortRegion_writes_within_buffer 4096 (by decide) [122] [98, 10, 97, 10, 120] []
    (by decide) none (some [99])
  ⟨h.1, by
    obtain ⟨out, pos, _, _, h3, h4⟩ := h.2.2
    rw [h4 (by decide)]
    exact h3⟩

/-- C17, for every positive region size: for every non-empty input file `sortFile` returns
normally and its output file is exactly the lines of the input in ascending byte order, each
followed by one newline byte; its length is the length of the input when the input ends with a
newline and one more otherwise; and it is the size `mergeRegions` gave the file before the merge
(the sum of the sizes of the run files), the write position at the last point of the merge loop
standing at the end of the window, so that the final `resize_file` removes no byte. -/
theorem sortFile_output_layout (sorter : FileSorter) (hp : 0 < sorter.page_size)
    (hrs : 0 < sorter.region_size_) (input : List Byte) (hne : input ≠ [])
    (output_file : Option (List Byte)) :
    sortFile sorter input output_file =
        { status := .ok, output_file := some (terminated (stdSort (linesOf input))) } ∧
      (terminated (stdSort (linesOf input))).length =
        (if input.getLast? = some NL then input.length else input.length + 1) ∧
      (terminated (stdSort (linesOf input))).length =
        ((sortFileRuns sorter input).map List.length).sum ∧
      ∀ p, (mergeRegionsPoints sorter (sortFileRuns sorter input) output_file).getLast? =
          some p →
        p.out.window - p.out.output_pos = 0 ∧
        subSizeT ((sortFileRuns sorter input).map List.length).sum
            (p.out.window - p.out.output_pos) =
          ((sortFileRuns sorter input).map List.length).sum := by
  have hspec := sortFile_spec sorter hp hrs input hne output_file
  have hruns := sortFileRuns_spec sorter hp hrs input
  obtain ⟨final, hfinal, hlen, _, _, hpts, hst⟩ := mergeRegions_points sorter hp hrs
    (sortFileRuns sorter input) (sortFileRuns_ne_nil sorter hp hrs input hne)
    (fun r hr => (hruns.1 r hr).terminatedRun) output_file
  have hfin : final = terminated (stdSort (linesOf input)) := by
    have := hspec
    rw [sortFile_eq_mergeRegions sorter hp hrs input output_file, hfinal] at this
    simpa using this
  refine ⟨hspec, ?_, by rw [← hfin, hlen], ?_⟩
  · rw [length_terminated_perm (stdSort_perm _), terminated_linesOf]
    have hiff := lastSegment_eq_nil_iff hne
    by_cases hseg : lastSegment input = []
    · rw [if_pos hseg, if_pos (hiff.mp hseg)]
    · rw [if_neg hseg, if_neg (fun hc => hseg (hiff.mpr hc))]
      simp
  · intro p hlast
    have hmem : p ∈ mergeRegionsPoints sorter (sortFileRuns sorter input) output_file :=
      List.mem_of_getLast?_eq_some hlast
    have hstored : p.stored = ((sortFileRuns sorter input).map List.length).sum := by
      rw [← hst]
      simp [storedAfter, hlast]
    obtain ⟨_, h2, _, _, _, _, h7, _, _, _, _⟩ := (hpts p hmem).facts
    have h0 : p.out.window - p.out.output_pos = 0 := by omega
    rw [h0]
    exact ⟨rfl, by simp [subSizeT]⟩

/-- Witness of C17, for every positive region size: the input `b\na`, split by regions of two
bytes. -/
theorem sortFile_output_layout_witness :
    sortFile { page_size := 1, num_pages_hint_ := 2, region_size_ := 2 } [98, 10, 97] none =
        { status := .ok, output_file := some (terminated (stdSort (linesOf [98, 10, 97]))) } ∧
      (terminated (stdSort (linesOf [98, 10, 97]))).length =
        (if ([98, 10, 97] : List Byte).getLast? = some NL then
          ([98, 10, 97] : List Byte).length else ([98, 10, 97] : List Byte).length + 1) :=
  have h := sortFile_output_layout { page_size := 1, num_pages_hint_ := 2, region_size_ := 2 }
    (by decide) (by decide) [98, 10, 97] (by decide) none
  ⟨h.1, h.2.1⟩

/-- C17, the code at the failing input: with pages of 4096 bytes the constructor accepts
`num_pages_hint = 2^52`, whose `size_t` product with the page size wraps around to the region
size 0, and `num_pages_hint = 0`; for the input `b\na\n`, whose lines in ascending order, each
followed by a newline, are the four bytes `a\nb\n`, `sortFile` of either sorter divides by zero
when it computes `num_regions`, before `mergeRegions` is reached, and leaves no output file. -/
theorem sortFile_accepted_zero_region_no_layout :
    FileSorter.new true 4096 (2 ^ 52) =
        some { page_size := 4096, num_pages_hint_ := 2 ^ 52, region_size_ := 0 } ∧
      FileSorter.new true 4096 0 =
        some { page_size := 4096, num_pages_hint_ := 0, region_size_ := 0 } ∧
      terminated (stdSort (linesOf [98, 10, 97, 10])) = [97, 10, 98, 10] ∧
      sortFile { page_size := 4096, num_pages_hint_ := 2 ^ 52, region_size_ := 0 }
          [98, 10, 97, 10] none = { status := .divisionByZero, output_file := none } ∧
      sortFile { page_size := 4096, num_pages_hint_ := 0, region_size_ := 0 }
          [98, 10, 97, 10] none = { status := .divisionByZero, output_file := none } ∧
      (sortFile { page_size := 4096, num_pages_hint_ := 2 ^ 52, region_size_ := 0 }
          [98, 10, 97, 10] none).output_file ≠
        some (terminated (stdSort (linesOf [98, 10, 97, 10]))) := by
  decide

/-- C18: for every input and every positive region size, every run file that `sortFile` hands
to `mergeRegions` is non-empty and is its lines, none of which holds a newline, each followed by
one newline byte; so its last byte is a newline and its size is the sum over its lines of
(length + 1); and the sum of the sizes of the run files, the size `mergeRegions` gives the output,
is the number of bytes stored at the last point of the merge loop. -/
theorem sortFileRuns_terminated (sorter : FileSorter) (hp : 0 < sorter.page_size)
    (hrs : 0 < sorter.region_size_) (input : List Byte) (output_file : Option (List Byte)) :
    (∀ run ∈ sortFileRuns sorter input,
        TerminatedRun run ∧ run = terminated (linesOf run) ∧ (∀ l ∈ linesOf run, NL ∉ l) ∧
        run.getLast? = some NL ∧
        run.length = ((linesOf run).map (fun l => l.length + 1)).sum) ∧
      storedAfter 0 (mergeRegionsPoints sorter (sortFileRuns sorter input) output_file) =
        ((sortFileRuns sorter input).map List.length).sum := by
  have hruns := sortFileRuns_spec sorter hp hrs input
  constructor
  · intro run hrun
    have ht := (hruns.1 run hrun).terminatedRun
    have hl : linesOf run = completeLines run := by simp [linesOf, ht.2]
    have he : run = terminated (linesOf run) := by rw [hl]; exact ht.eq_terminated_lines
    have hne : linesOf run ≠ [] := linesOf_ne_nil ht.1
    refine ⟨ht, he, not_mem_of_mem_linesOf run, ?_, ?_⟩
    · rw [he]; exact getLast?_terminated hne
    · conv_lhs => rw [he]
      exact length_terminated _
  · by_cases hnil : sortFileRuns sorter input = []
    · rw [hnil, mergeRegionsPoints_nil]
      rfl
    · obtain ⟨_, _, _, _, _, _, hst⟩ := mergeRegions_points sorter hp hrs
        (sortFileRuns sorter input) hnil (fun r hr => (hruns.1 r hr).terminatedRun) output_file
      exact hst

/-- Witness of C18: the input `b\na`, split by regions of two bytes. -/
theorem sortFileRuns_terminated_witness :
    (∀ run ∈ sortFileRuns { page_size := 1, num_pages_hint_ := 2, region_size_ := 2 }
          [98, 10, 97],
        TerminatedRun run ∧ run = terminated (linesOf run) ∧ (∀ l ∈ linesOf run, NL ∉ l) ∧
        run.getLast? = some NL ∧
        run.length = ((linesOf run).map (fun l => l.length + 1)).sum) ∧
      storedAfter 0 (mergeRegionsPoints { page_size := 1, num_pages_hint_ := 2, region_size_ := 2 }
          (sortFileRuns { page_size := 1, num_pages_hint_ := 2, region_size_ := 2 } [98, 10, 97])
          none) =
        ((sortFileRuns { page_size := 1, num_pages_hint_ := 2, region_size_ := 2 }
          [98, 10, 97]).map List.length).sum :=
  sortFileRuns_terminated { page_size := 1, num_pages_hint_ := 2, region_size_ := 2 }
    (by decide) (by decide) [98, 10, 97] none

/-- C19: after each region processed by `sortFile` (after `k >= 1` passes of the region loop, the
bytes consumed being the first `k * region_size_` bytes of the input), the loop has not failed
and `last_partial_line` is absent or a non-empty byte string without a newline; it is present
exactly when the bytes consumed do not end with a newline, and then it is their bytes behind
their last newline, all of them if they hold no newline. -/
theorem regionPass_carry_invariant (sorter : FileSorter) (hp : 0 < sorter.page_size)
    (hrs : 0 < sorter.region_size_) (input : List Byte) (k : Nat) (hk1 : 1 ≤ k)
    (hk : k ≤ numRegions sorter.region_size_ input.length) :
    (regionPass sorter input k).status = .ok ∧
      (∀ c, (regionPass sorter input k).last_partial_line = some c →
        c ≠ [] ∧ NL ∉ c ∧ c = lastSegment (input.take (k * sorter.region_size_)) ∧
        (NL ∉ input.take (k * sorter.region_size_) →
          c = input.take (k * sorter.region_size_))) ∧
      ((regionPass sorter input k).last_partial_line.isSome = true ↔
        (input.take (k * sorter.region_size_)).getLast? ≠ some NL) := by
  have h := regionPass_inv sorter hp hrs input k hk
  have hlt : (k - 1) * sorter.region_size_ < input.length :=
    (lt_numRegions hrs _ (k - 1)).mp (by unfold numRegions at hk; omega)
  have hpos : 0 < k * sorter.region_size_ := Nat.mul_pos (by omega) hrs
  have hne : input.take (k * sorter.region_size_) ≠ [] := by
    intro hc
    have := congrArg List.length hc
    simp only [List.length_take, List.length_nil] at this
    omega
  refine ⟨h.status_ok, ?_, ?_⟩
  · intro c hc
    rw [h.carry] at hc
    unfold carryOf at hc
    split at hc
    · simp at hc
    · rename_i hseg
      simp only [Option.some.injEq] at hc
      subst hc
      refine ⟨hseg, not_mem_lastSegment _, rfl, ?_⟩
      intro hnl
      simp [lastSegment, splitFrom_of_not_mem hnl]
  · have hiff := lastSegment_eq_nil_iff hne
    rw [h.carry]
    unfold carryOf
    by_cases hseg : lastSegment (input.take (k * sorter.region_size_)) = []
    · rw [if_pos hseg]
      simp [hiff.mp hseg]
    · rw [if_neg hseg]
      simpa using fun hc => hseg (hiff.mpr hc)

/-- Witness of C19: the input `ab\ncd` after the first of its regions of four bytes. -/
theorem regionPass_carry_invariant_witness :
    (regionPass { page_size := 4, num_pages_hint_ := 1, region_size_ := 4 }
        [97, 98, 10, 99, 100] 1).status = .ok ∧
      (regionPass { page_size := 4, num_pages_hint_ := 1, region_size_ := 4 }
        [97, 98, 10, 99, 100] 1).last_partial_line = some [99] :=
  have h := regionPass_carry_invariant
    { page_size := 4, num_pages_hint_ := 1, region_size_ := 4 } (by decide) (by decide)
    [97, 98, 10, 99, 100] 1 (by decide) (by decide)
  ⟨h.1, by decide⟩

/-- C20: for every input size and every region size above zero, the windows
`(i * region_size_, min region_size_ (size - i * region_size_))` of the passes
`i < (size + region_size_ - 1) / region_size_` of the region loop of `sortFile` have between one
and `region_size_` bytes and lie inside the input; the first starts at byte 0, each next one
starts where the one before ends, the last ends at `size`, two different windows share no byte,
and every byte of the input lies in one of them; there is no window exactly when the input is
empty. -/
theorem regionWindow_tiling (region_size_ size : Nat) (hrs : 0 < region_size_) :
    (∀ i, i < numRegions region_size_ size →
        1 ≤ (regionWindow region_size_ size i).2 ∧
        (regionWindow region_size_ size i).2 ≤ region_size_ ∧
        (regionWindow region_size_ size i).1 + (regionWindow region_size_ size i).2 ≤ size) ∧
      (regionWindow region_size_ size 0).1 = 0 ∧
      (∀ i, i + 1 < numRegions region_size_ size →
        (regionWindow region_size_ size i).1 + (regionWindow region_size_ size i).2 =
          (regionWindow region_size_ size (i + 1)).1) ∧
      (∀ i, i + 1 = numRegions region_size_ size →
        (regionWindow region_size_ size i).1 + (regionWindow region_size_ size i).2 = size) ∧
      (∀ i j, i < j → j < numRegions region_size_ size →
        (regionWindow region_size_ size i).1 + (regionWindow region_size_ size i).2 ≤
          (regionWindow region_size_ size j).1) ∧
      (∀ b, b < size → ∃ i, i < numRegions region_size_ size ∧
        (regionWindow region_size_ size i).1 ≤ b ∧
        b < (regionWindow region_size_ size i).1 + (regionWindow region_size_ size i).2) ∧
      (numRegions region_size_ size = 0 ↔ size = 0) := by
  unfold numRegions
  simp only [regionWindow]
  refine ⟨?_, Nat.zero_mul _, ?_, ?_, ?_, ?_, ?_⟩
  · intro i hi
    have h := (lt_numRegions hrs size i).mp hi
    omega
  · intro i hi
    have h := (lt_numRegions hrs size (i + 1)).mp hi
    rw [Nat.succ_mul] at h ⊢
    omega
  · intro i hi
    have h := (lt_numRegions hrs size i).mp (by omega)
    have h2 := le_numRegions_mul hrs size
    rw [← hi, Nat.succ_mul] at h2
    omega
  · intro i j hij hj
    have h : (i + 1) * region_size_ ≤ j * region_size_ := Nat.mul_le_mul_right _ hij
    rw [Nat.succ_mul] at h
    omega
  · intro b hb
    have h1 : b / region_size_ * region_size_ ≤ b := Nat.div_mul_le_self b region_size_
    have h2 : b < b / region_size_ * region_size_ + region_size_ := by
      have := Nat.div_add_mod b region_size_
      have := Nat.mod_lt b hrs
      rw [Nat.mul_comm] at h1
      rw [Nat.mul_comm]
      omega
    refine ⟨b / region_size_, (lt_numRegions hrs size _).mpr (by omega), h1, ?_⟩
    omega
  · constructor
    · intro h0
      by_contra hne
      have := (lt_numRegions hrs size 0).mpr (by omega)
      omega
    · intro h0
      by_contra hne
      have := (lt_numRegions hrs size 0).mp (Nat.pos_of_ne_zero hne)
      omega

/-- Witness of C20: an input of ten bytes in regions of four bytes has the three windows
`(0, 4)`, `(4, 4)` and `(8, 2)`. -/
theorem regionWindow_tiling_witness :
    numRegions 4 10 = 3 ∧ regionWindow 4 10 0 = (0, 4) ∧ regionWindow 4 10 1 = (4, 4) ∧
      regionWindow 4 10 2 = (8, 2) ∧
      (regionWindow 4 10 0).1 + (regionWindow 4 10 0).2 = (regionWindow 4 10 (0 + 1)).1 ∧
      (regionWindow 4 10 2).1 + (regionWindow 4 10 2).2 = 10 :=
  have h := regionWindow_tiling 4 10 (by decide)
  ⟨by decide, by decide, by decide, by decide, h.2.2.1 0 (by decide), h.2.2.2.1 2 (by decide)⟩

end FileSort
